import Mathlib

/-!
Verification of the order-insensitive JSON comparison core of `app.py`
(`normalize_json`, `intersect_json`, `diff_json`, `similarity_score`).

The JSON value model is embedded as the inductive `Value`; Python dicts are
insertion-ordered association lists (keys unique in every dict the program can
build, captured by `validV`), numbers are embedded as integers, and Python
`None` — which the program uses both as JSON null and as the "absent" result
of `intersect_json` — is `Value.null`.  `orjson.dumps` of a tree is modelled
by the serializer `ser` and `orjson.loads` of a serialized fingerprint by the
parser `parseV`/`loads`.  Python `==` (which equates `True` with `1` and
`False` with `0`, and compares dicts ignoring insertion order) is modelled by
`pyEqF`.  Recursive functions whose Python recursion goes through dictionary
lookups take an explicit fuel argument seeded with the tree size `vsize`.
-/

inductive Value where
  | null
  | bool (b : Bool)
  | num (n : Int)
  | str (s : String)
  | arr (items : List Value)
  | obj (entries : List (String × Value))
deriving Repr

mutual

def vsize : Value → Nat
  | .null => 1
  | .bool _ => 1
  | .num _ => 1
  | .str _ => 1
  | .arr xs => 1 + lsize xs
  | .obj es => 1 + esize es

def lsize : List Value → Nat
  | [] => 0
  | x :: xs => vsize x + 1 + lsize xs

def esize : List (String × Value) → Nat
  | [] => 0
  | kv :: es => vsize kv.2 + 1 + esize es

end

theorem vsize_pos : ∀ v : Value, 1 ≤ vsize v := by
  intro v
  cases v <;> simp [vsize]

theorem lsize_lt_of_mem : ∀ {x : Value} {xs : List Value}, x ∈ xs → vsize x < lsize xs := by
  intro x xs h
  induction xs with
  | nil => cases h
  | cons y ys ih =>
    rcases List.mem_cons.mp h with h | h
    · subst h; simp [lsize]; omega
    · have := ih h; simp [lsize]; omega

theorem esize_lt_of_mem : ∀ {kv : String × Value} {es : List (String × Value)},
    kv ∈ es → vsize kv.2 < esize es := by
  intro kv es h
  induction es with
  | nil => cases h
  | cons e es ih =>
    rcases List.mem_cons.mp h with h | h
    · subst h; simp [esize]; omega
    · have := ih h; simp [esize]; omega

theorem vsize_lt_of_mem_arr {x : Value} {xs : List Value} (h : x ∈ xs) :
    vsize x < vsize (Value.arr xs) := by
  have := lsize_lt_of_mem h; simp [vsize]; omega

theorem vsize_lt_of_mem_obj {kv : String × Value} {es : List (String × Value)} (h : kv ∈ es) :
    vsize kv.2 < vsize (Value.obj es) := by
  have := esize_lt_of_mem h; simp [vsize]; omega

mutual

def veq : Value → Value → Bool
  | .null, .null => true
  | .bool a, .bool b => a == b
  | .num a, .num b => a == b
  | .str a, .str b => a == b
  | .arr xs, .arr ys => leqList xs ys
  | .obj es, .obj fs => eeqList es fs
  | _, _ => false

def leqList : List Value → List Value → Bool
  | [], [] => true
  | x :: xs, y :: ys => veq x y && leqList xs ys
  | _, _ => false

def eeqList : List (String × Value) → List (String × Value) → Bool
  | [], [] => true
  | kv :: es, kw :: fs => kv.1 == kw.1 && veq kv.2 kw.2 && eeqList es fs
  | _, _ => false

end

theorem leqList_iff_of {xs ys : List Value}
    (h : ∀ x ∈ xs, ∀ w, veq x w = true ↔ x = w) : leqList xs ys = true ↔ xs = ys := by
  induction xs generalizing ys with
  | nil => cases ys <;> simp [leqList]
  | cons x xs ih =>
    cases ys with
    | nil => simp [leqList]
    | cons y ys =>
      simp only [leqList, Bool.and_eq_true]
      rw [h x (by simp) y, ih (fun x hx w => h x (by simp [hx]) w)]
      simp

theorem eeqList_iff_of {es fs : List (String × Value)}
    (h : ∀ kv ∈ es, ∀ w, veq kv.2 w = true ↔ kv.2 = w) : eeqList es fs = true ↔ es = fs := by
  induction es generalizing fs with
  | nil => cases fs <;> simp [eeqList]
  | cons kv es ih =>
    cases fs with
    | nil => simp [eeqList]
    | cons kw fs =>
      obtain ⟨k, v⟩ := kv
      obtain ⟨k2, w⟩ := kw
      simp only [eeqList, Bool.and_eq_true, beq_iff_eq]
      rw [h (k, v) (by simp) w, ih (fun kv hkv u => h kv (by simp [hkv]) u)]
      simp [List.cons.injEq, Prod.mk.injEq, and_assoc]

theorem veq_iff_aux : ∀ n, ∀ v w : Value, vsize v ≤ n → (veq v w = true ↔ v = w) := by
  intro n
  induction n with
  | zero => intro v w h; have := vsize_pos v; omega
  | succ m ih =>
    intro v w hle
    cases v with
    | null => cases w <;> simp [veq]
    | bool a => cases w <;> simp [veq]
    | num a => cases w <;> simp [veq]
    | str a => cases w <;> simp [veq]
    | arr xs =>
      cases w <;> simp only [veq, Bool.false_eq_true, false_iff] <;> try exact fun h => Value.noConfusion h
      case arr ys =>
        rw [leqList_iff_of (fun x hx w => ih x w (by have := vsize_lt_of_mem_arr hx; omega))]
        simp
    | obj es =>
      cases w <;> simp only [veq, Bool.false_eq_true, false_iff] <;> try exact fun h => Value.noConfusion h
      case obj fs =>
        rw [eeqList_iff_of (fun kv hkv w => ih kv.2 w (by have := vsize_lt_of_mem_obj hkv; omega))]
        simp

theorem veq_iff (v w : Value) : veq v w = true ↔ v = w :=
  veq_iff_aux (vsize v) v w le_rfl

instance : DecidableEq Value := fun v w =>
  decidable_of_iff (veq v w = true) (veq_iff v w)

/-! ### Lexicographic order on character lists (byte order of orjson output) -/

def lexLt : List Char → List Char → Bool
  | _, [] => false
  | [], _ :: _ => true
  | a :: as, b :: bs => if a < b then true else if b < a then false else lexLt as bs

def lexLe (a b : List Char) : Bool := !(lexLt b a)

theorem lexLt_irrefl : ∀ a : List Char, lexLt a a = false := by
  intro a
  induction a with
  | nil => rfl
  | cons c cs ih => simp [lexLt, ih]

theorem lexLt_asymm : ∀ a b : List Char, lexLt a b = true → lexLt b a = false := by
  intro a
  induction a with
  | nil => intro b h; cases b <;> simp_all [lexLt]
  | cons c cs ih =>
    intro b h
    cases b with
    | nil => simp [lexLt] at h
    | cons d ds =>
      simp only [lexLt] at h ⊢
      rcases lt_trichotomy c d with hcd | hcd | hcd
      · simp [hcd, not_lt_of_gt hcd]
      · subst hcd
        simp only [lt_irrefl, if_false] at h ⊢
        exact ih ds h
      · simp [hcd, not_lt_of_gt hcd] at h

theorem lexLt_eq_of_not : ∀ a b : List Char, lexLt a b = false → lexLt b a = false → a = b := by
  intro a
  induction a with
  | nil => intro b h1 _; cases b with
    | nil => rfl
    | cons d ds => simp [lexLt] at h1
  | cons c cs ih =>
    intro b h1 h2
    cases b with
    | nil => simp [lexLt] at h2
    | cons d ds =>
      simp only [lexLt] at h1 h2
      rcases lt_trichotomy c d with hcd | hcd | hcd
      · simp [hcd] at h1
      · subst hcd
        simp only [lt_irrefl, if_false] at h1 h2
        rw [ih ds h1 h2]
      · simp [hcd] at h2

theorem lexLt_trans : ∀ a b c : List Char,
    lexLt a b = true → lexLt b c = true → lexLt a c = true := by
  intro a
  induction a with
  | nil =>
    intro b c h1 h2
    cases b with
    | nil => simp [lexLt] at h1
    | cons d ds => cases c with
      | nil => simp [lexLt] at h2
      | cons e es => simp [lexLt]
  | cons x xs ih =>
    intro b c h1 h2
    cases b with
    | nil => simp [lexLt] at h1
    | cons y ys =>
      cases c with
      | nil => simp [lexLt] at h2
      | cons z zs =>
        simp only [lexLt] at h1 h2 ⊢
        rcases lt_trichotomy x y with hxy | hxy | hxy
        · rcases lt_trichotomy y z with hyz | hyz | hyz
          · have : x < z := lt_trans hxy hyz
            simp [this]
          · subst hyz; simp [hxy]
          · simp [hyz, not_lt_of_gt hyz] at h2
        · subst hxy
          rcases lt_trichotomy x z with hyz | hyz | hyz
          · simp [hyz]
          · subst hyz
            simp only [lt_irrefl, if_false] at h1 h2 ⊢
            exact ih _ _ h1 h2
          · simp [hyz, not_lt_of_gt hyz] at h2
        · simp [hxy, not_lt_of_gt hxy] at h1

theorem lexLe_trans {a b c : List Char} (h1 : lexLe a b = true) (h2 : lexLe b c = true) :
    lexLe a c = true := by
  simp only [lexLe, Bool.not_eq_true'] at h1 h2 ⊢
  by_contra hcon
  rw [Bool.not_eq_false] at hcon
  rcases Bool.eq_false_or_eq_true (lexLt a b) with hab | hab
  · have := lexLt_trans c a b hcon hab
    rw [h2] at this
    exact Bool.false_ne_true this
  · have heq : a = b := lexLt_eq_of_not a b hab h1
    subst heq
    rw [hcon] at h2
    exact absurd h2 (by simp)

theorem lexLe_total (a b : List Char) : lexLe a b = true ∨ lexLe b a = true := by
  rcases Bool.eq_false_or_eq_true (lexLt b a) with h | h
  · exact Or.inr (by simp [lexLe, lexLt_asymm _ _ h])
  · exact Or.inl (by simp [lexLe, h])

theorem lexLe_antisymm {a b : List Char} (h1 : lexLe a b = true) (h2 : lexLe b a = true) :
    a = b := by
  simp only [lexLe, Bool.not_eq_true'] at h1 h2
  exact lexLt_eq_of_not a b h2 h1

theorem lexLe_total_bool (a b : List Char) : (lexLe a b || lexLe b a) = true := by
  rcases lexLe_total a b with h | h <;> simp [h]

/-- Python `<=` on `str` keys (and on serialized byte strings). -/
def strLeB (s t : String) : Bool := lexLe s.data t.data

def strLtB (s t : String) : Bool := lexLt s.data t.data

theorem strLeB_trans {a b c : String} (h1 : strLeB a b = true) (h2 : strLeB b c = true) :
    strLeB a c = true := lexLe_trans h1 h2

theorem strLeB_total (a b : String) : (strLeB a b || strLeB b a) = true :=
  lexLe_total_bool a.data b.data

theorem strLeB_antisymm {a b : String} (h1 : strLeB a b = true) (h2 : strLeB b a = true) :
    a = b := by
  apply String.ext
  exact lexLe_antisymm h1 h2

/-! ### Decimal rendering of integers (orjson number output) -/

def digitChar : Nat → Char
  | 0 => '0' | 1 => '1' | 2 => '2' | 3 => '3' | 4 => '4'
  | 5 => '5' | 6 => '6' | 7 => '7' | 8 => '8' | _ => '9'

def natCharsF : Nat → Nat → List Char
  | 0, _ => []
  | f + 1, n =>
    if n < 10 then [digitChar n]
    else natCharsF f (n / 10) ++ [digitChar (n % 10)]

def natChars (n : Nat) : List Char := natCharsF (n + 1) n

def intChars : Int → List Char
  | .ofNat n => natChars n
  | .negSucc n => '-' :: natChars (n + 1)

example : natChars 0 = ['0'] := by decide
example : natChars 125 = ['1', '2', '5'] := by decide
example : intChars (-31) = ['-', '3', '1'] := by decide

/-! ### JSON string escaping and the orjson serializer -/

def hexDigitChar : Nat → Char
  | 0 => '0' | 1 => '1' | 2 => '2' | 3 => '3' | 4 => '4'
  | 5 => '5' | 6 => '6' | 7 => '7' | 8 => '8' | 9 => '9'
  | 10 => 'a' | 11 => 'b' | 12 => 'c' | 13 => 'd' | 14 => 'e' | _ => 'f'

def escapeChar (c : Char) : List Char :=
  if c = '\x22' then ['\\', '\x22']
  else if c = '\\' then ['\\', '\\']
  else if c.toNat < 32 then
    if c = '\x08' then ['\\', 'b']
    else if c = '\x09' then ['\\', 't']
    else if c = '\x0a' then ['\\', 'n']
    else if c = '\x0c' then ['\\', 'f']
    else if c = '\x0d' then ['\\', 'r']
    else ['\\', 'u', '0', '0', hexDigitChar (c.toNat / 16), hexDigitChar (c.toNat % 16)]
  else [c]

def escapeChars : List Char → List Char
  | [] => []
  | c :: cs => escapeChar c ++ escapeChars cs

/-- Serialized form of one object key, including the closing quote and colon. -/
def serKey (k : String) : List Char := '\x22' :: escapeChars k.data ++ ['\x22', ':']

mutual

def ser : Value → List Char
  | .obj es => '\x7b' :: serEntries es ++ ['\x7d']
  | .arr xs => '[' :: serItems xs ++ [']']
  | .str s => '\x22' :: escapeChars s.data ++ ['\x22']
  | .num n => intChars n
  | .bool false => ['f', 'a', 'l', 's', 'e']
  | .bool true => ['t', 'r', 'u', 'e']
  | .null => ['n', 'u', 'l', 'l']

def serItems : List Value → List Char
  | [] => []
  | x :: t => ser x ++ serItemsTail t

def serItemsTail : List Value → List Char
  | [] => []
  | x :: t => ',' :: (ser x ++ serItemsTail t)

def serEntries : List (String × Value) → List Char
  | [] => []
  | kv :: t => serKey kv.1 ++ ser kv.2 ++ serEntriesTail t

def serEntriesTail : List (String × Value) → List Char
  | [] => []
  | kv :: t => ',' :: (serKey kv.1 ++ ser kv.2 ++ serEntriesTail t)

end

example : ser (Value.obj [("a", Value.num 1), ("b", Value.arr [Value.null, Value.num (-2)])])
    = ['\x7b', '\x22', 'a', '\x22', ':', '1', ',', '\x22', 'b', '\x22', ':',
       '[', 'n', 'u', 'l', 'l', ',', '-', '2', ']', '\x7d'] := by decide

/-! ### Parser for serialized canonical fingerprints (orjson.loads) -/

def hexVal : Char → Nat
  | '0' => 0 | '1' => 1 | '2' => 2 | '3' => 3 | '4' => 4
  | '5' => 5 | '6' => 6 | '7' => 7 | '8' => 8 | '9' => 9
  | 'a' => 10 | 'b' => 11 | 'c' => 12 | 'd' => 13 | 'e' => 14 | _ => 15

def unescapeChar : Char → Option Char
  | '\x22' => some '\x22'
  | '\\' => some '\\'
  | '/' => some '/'
  | 'b' => some '\x08'
  | 't' => some '\x09'
  | 'n' => some '\x0a'
  | 'f' => some '\x0c'
  | 'r' => some '\x0d'
  | _ => none

def parseStr : List Char → Option (List Char × List Char)
  | [] => none
  | c :: cs =>
    if c = '\x22' then some ([], cs)
    else if c = '\\' then
      match cs with
      | 'u' :: a :: b :: c2 :: d :: rest =>
          (parseStr rest).map
            (fun p =>
              (Char.ofNat (((hexVal a * 16 + hexVal b) * 16 + hexVal c2) * 16 + hexVal d) :: p.1,
               p.2))
      | e :: rest =>
          match unescapeChar e with
          | some u => (parseStr rest).map (fun p => (u :: p.1, p.2))
          | none => none
      | [] => none
    else (parseStr cs).map (fun p => (c :: p.1, p.2))

def digitVal (c : Char) : Nat := c.toNat - 48

def takeDigits : List Char → (List Char × List Char)
  | [] => ([], [])
  | c :: cs =>
    if c.isDigit then
      let p := takeDigits cs
      (c :: p.1, p.2)
    else ([], c :: cs)

def digitsToNat (ds : List Char) : Nat := ds.foldl (fun acc c => 10 * acc + digitVal c) 0

def parseNum (cs : List Char) : Option (Int × List Char) :=
  let p := takeDigits cs
  if p.1.isEmpty then none else some ((digitsToNat p.1 : Int), p.2)

mutual

def parseV : Nat → List Char → Option (Value × List Char)
  | 0, _ => none
  | f + 1, cs =>
    match cs with
    | [] => none
    | c :: cs2 =>
      if c = 'n' then
        match cs2 with
        | 'u' :: 'l' :: 'l' :: rest => some (.null, rest)
        | _ => none
      else if c = 't' then
        match cs2 with
        | 'r' :: 'u' :: 'e' :: rest => some (.bool true, rest)
        | _ => none
      else if c = 'f' then
        match cs2 with
        | 'a' :: 'l' :: 's' :: 'e' :: rest => some (.bool false, rest)
        | _ => none
      else if c = '\x22' then (parseStr cs2).map (fun p => (.str (String.mk p.1), p.2))
      else if c = '[' then
        if cs2.head? = some ']' then some (.arr [], cs2.tail)
        else (parseItems f cs2).map (fun p => (.arr p.1, p.2))
      else if c = '\x7b' then
        if cs2.head? = some '\x7d' then some (.obj [], cs2.tail)
        else (parseFields f cs2).map (fun p => (.obj p.1, p.2))
      else if c = '-' then (parseNum cs2).map (fun p => (.num (-p.1), p.2))
      else if c.isDigit then (parseNum (c :: cs2)).map (fun p => (.num p.1, p.2))
      else none

def parseItems : Nat → List Char → Option (List Value × List Char)
  | 0, _ => none
  | f + 1, cs =>
    match parseV f cs with
    | some (v, ',' :: rest) => (parseItems f rest).map (fun p => (v :: p.1, p.2))
    | some (v, ']' :: rest) => some ([v], rest)
    | _ => none

def parseFields : Nat → List Char → Option (List (String × Value) × List Char)
  | 0, _ => none
  | f + 1, cs =>
    match cs with
    | '\x22' :: rest =>
      match parseStr rest with
      | some (k, ':' :: rest2) =>
        match parseV f rest2 with
        | some (v, ',' :: rest3) => (parseFields f rest3).map (fun p => ((String.mk k, v) :: p.1, p.2))
        | some (v, '\x7d' :: rest3) => some ([(String.mk k, v)], rest3)
        | _ => none
      | _ => none
    | _ => none

end

/-- `orjson.loads` on a serialized fingerprint. -/
def loads (s : List Char) : Option Value :=
  match parseV (s.length + 1) s with
  | some (v, []) => some v
  | _ => none

example : loads (ser (Value.obj [("a", Value.num 1), ("b", Value.arr [Value.null, Value.num (-2)])]))
    = some (Value.obj [("a", Value.num 1), ("b", Value.arr [Value.null, Value.num (-2)])]) := by decide

example : loads (ser (Value.str "x\x09y\x01z\\w\x22")) = some (Value.str "x\x09y\x01z\\w\x22") := by decide

/-! ### Dictionary helpers (Python dict lookup / insertion-ordered maps) -/

def lookupKey : List (String × Value) → String → Option Value
  | [], _ => none
  | kv :: es, k => if kv.1 = k then some kv.2 else lookupKey es k

/-- Python `value[k]` on a dict (total model; only evaluated at present keys). -/
def dictGet (es : List (String × Value)) (k : String) : Value := (lookupKey es k).getD .null

def bget {α : Type} : List (List Char × α) → List Char → Option α
  | [], _ => none
  | kv :: m, k => if kv.1 = k then some kv.2 else bget m k

/-! ### normalize_json -/

/-- Comparison of array elements by serialized canonical byte form
(`sorted(..., key=lambda x: orjson.dumps(x))`). -/
def serLeB (x y : Value) : Bool := lexLe (ser x) (ser y)

mutual

def normalize_json : Value → Value
  | .obj es =>
      .obj (((es.map Prod.fst).mergeSort strLeB).map (fun k => (k, dictGet (normalizeEntries es) k)))
  | .arr xs => .arr ((normalizeList xs).mergeSort serLeB)
  | .null => .null
  | .bool b => .bool b
  | .num n => .num n
  | .str s => .str s

def normalizeList : List Value → List Value
  | [] => []
  | x :: xs => normalize_json x :: normalizeList xs

def normalizeEntries : List (String × Value) → List (String × Value)
  | [] => []
  | kv :: es => (kv.1, normalize_json kv.2) :: normalizeEntries es

end

/-- Canonical serialized fingerprint `orjson.dumps(normalize_json(item))`. -/
def fp (v : Value) : List Char := ser (normalize_json v)

/-! ### Python `==` (used on already-normalized values) -/

def pyEqF : Nat → Value → Value → Bool
  | 0, _, _ => false
  | f + 1, a, b =>
    match a, b with
    | .null, .null => true
    | .bool x, .bool y => x == y
    | .bool x, .num n => (if x then (1 : Int) else 0) == n
    | .num n, .bool x => n == (if x then (1 : Int) else 0)
    | .num n, .num m => n == m
    | .str s, .str t => s == t
    | .arr xs, .arr ys => xs.length == ys.length && (List.zip xs ys).all (fun p => pyEqF f p.1 p.2)
    | .obj es, .obj fs =>
        es.length == fs.length && es.all (fun kv =>
          match lookupKey fs kv.1 with
          | some w => pyEqF f kv.2 w
          | none => false)
    | _, _ => false

def pyEq (a b : Value) : Bool := pyEqF (vsize a) a b

def deep_equal_ignore_order (a b : Value) : Bool := pyEq (normalize_json a) (normalize_json b)

/-- Spec §4.1: `order_equivalent(a, b) := canonicalize(a) == canonicalize(b)`,
structural equality on canonical forms. -/
def order_equivalent (a b : Value) : Prop := normalize_json a = normalize_json b

/-! ### Well-formed values: every object has pairwise distinct keys
(guaranteed for every tree a Python dict can represent) -/

def nodupKeys : List String → Bool
  | [] => true
  | k :: ks => !(ks.contains k) && nodupKeys ks

mutual

def validV : Value → Bool
  | .arr xs => validL xs
  | .obj es => nodupKeys (es.map Prod.fst) && validE es
  | _ => true

def validL : List Value → Bool
  | [] => true
  | x :: xs => validV x && validL xs

def validE : List (String × Value) → Bool
  | [] => true
  | kv :: es => validV kv.2 && validE es

end

/-! ### intersect_json -/

def setdefaultApp : List (List Char × List Value) → List Char → Value → List (List Char × List Value)
  | [], k, item => [(k, [item])]
  | kv :: m, k, item =>
    if kv.1 = k then (kv.1, kv.2 ++ [item]) :: m else kv :: setdefaultApp m k item

/-- `canon_to_items_a`: insertion-ordered map from canonical fingerprint to the
items of `a` carrying it. -/
def buildMapA (xs : List Value) : List (List Char × List Value) :=
  xs.foldl (fun m item => setdefaultApp m (fp item) item) []

/-- Pop one occurrence for `key` (`canon_to_items_a[key].pop()`, deleting the
key when its list empties). -/
def consumeOne : List (List Char × List Value) → List Char → List (List Char × List Value)
  | [], _ => []
  | kv :: m, k =>
    if kv.1 = k then
      if kv.2.dropLast.isEmpty then m else (kv.1, kv.2.dropLast) :: m
    else kv :: consumeOne m k

/-- The loop over `b`'s elements emitting matched originals in order. -/
def interLoop : List (List Char × List Value) → List Value → List Value
  | _, [] => []
  | m, item :: rest =>
    match bget m (fp item) with
    | some (_ :: _) => item :: interLoop (consumeOne m (fp item)) rest
    | _ => interLoop m rest

def intersectF : Nat → Value → Value → Value
  | 0, _, _ => .null
  | f + 1, a, b =>
    match a, b with
    | .obj ea, .obj eb =>
      let ks := ((ea.map Prod.fst).dedup.filter
        (fun k => (eb.map Prod.fst).contains k)).mergeSort strLeB
      let result := ks.filterMap (fun k =>
        let sub := intersectF f (dictGet ea k) (dictGet eb k)
        if sub = .null then none else some (k, sub))
      if result.isEmpty then .null else .obj result
    | .arr xs, .arr ys =>
      let common := interLoop (buildMapA xs) ys
      if common.isEmpty then .null else .arr common
    | _, _ => if deep_equal_ignore_order a b then a else .null

def intersect_json (a b : Value) : Value := intersectF (vsize a) a b

/-! ### diff_json -/

structure OnlyEntry where
  path : String
  value : Value
  count : Option Nat
deriving DecidableEq, Repr

structure ModEntry where
  path : String
  a : Value
  b : Value
deriving DecidableEq, Repr

structure DiffResult where
  only_in_a : List OnlyEntry
  only_in_b : List OnlyEntry
  modified : List ModEntry
deriving DecidableEq, Repr

def bumpCount : List (List Char × Nat) → List Char → List (List Char × Nat)
  | [], k => [(k, 1)]
  | kv :: m, k => if kv.1 = k then (kv.1, kv.2 + 1) :: m else kv :: bumpCount m k

/-- Canonical-form multiplicity map of a list (insertion-ordered). -/
def multiset_counts (lst : List Value) : List (List Char × Nat) :=
  lst.foldl (fun counts item => bumpCount counts (fp item)) []

def countGet (m : List (List Char × Nat)) (k : List Char) : Nat := (bget m k).getD 0

def isComposite : Value → Bool
  | .obj _ => true
  | .arr _ => true
  | _ => false

def diffF : Nat → Value → Value → String → DiffResult
  | 0, _, _, _ => ⟨[], [], []⟩
  | f + 1, a, b, path =>
    match a, b with
    | .obj ea, .obj eb =>
      let keysA := (ea.map Prod.fst).dedup
      let keysB := (eb.map Prod.fst).dedup
      let onlyA := ((keysA.filter (fun k => !(keysB.contains k))).mergeSort strLeB).map
        (fun k => OnlyEntry.mk (path ++ "." ++ k) (dictGet ea k) none)
      let onlyB := ((keysB.filter (fun k => !(keysA.contains k))).mergeSort strLeB).map
        (fun k => OnlyEntry.mk (path ++ "." ++ k) (dictGet eb k) none)
      let shared := (keysA.filter (fun k => keysB.contains k)).mergeSort strLeB
      shared.foldl (fun acc k =>
        let sub_a := dictGet ea k
        let sub_b := dictGet eb k
        if isComposite sub_a || isComposite sub_b then
          let sd := diffF f sub_a sub_b (path ++ "." ++ k)
          ⟨acc.only_in_a ++ sd.only_in_a, acc.only_in_b ++ sd.only_in_b, acc.modified ++ sd.modified⟩
        else if !(deep_equal_ignore_order sub_a sub_b) then
          ⟨acc.only_in_a, acc.only_in_b, acc.modified ++ [ModEntry.mk (path ++ "." ++ k) sub_a sub_b]⟩
        else acc)
        (DiffResult.mk onlyA onlyB [])
    | .arr xs, .arr ys =>
      let counts_a := multiset_counts xs
      let counts_b := multiset_counts ys
      DiffResult.mk
        (counts_a.filterMap (fun kc =>
          let extra := kc.2 - countGet counts_b kc.1
          if 0 < extra then
            some (OnlyEntry.mk (path ++ "[]") ((loads kc.1).getD .null) (some extra))
          else none))
        (counts_b.filterMap (fun kc =>
          let extra := kc.2 - countGet counts_a kc.1
          if 0 < extra then
            some (OnlyEntry.mk (path ++ "[]") ((loads kc.1).getD .null) (some extra))
          else none))
        []
    | _, _ =>
      if !(deep_equal_ignore_order a b) then ⟨[], [], [ModEntry.mk path a b]⟩ else ⟨[], [], []⟩

def diff_json (a b : Value) (path : String) : DiffResult := diffF (vsize a) a b path

/-! ### similarity_score -/

def ngrams (s : List Char) : Finset (List Char) :=
  (Finset.range (max 1 (s.length - 1))).image (fun i => (s.drop i).take 2)

def similarity_score (a b : Value) : ℚ :=
  let ca := normalize_json a
  let cb := normalize_json b
  if pyEq ca cb then 1
  else
    let ga := ngrams (ser ca)
    let gb := ngrams (ser cb)
    if ga = ∅ ∧ gb = ∅ then 1
    else if ga = ∅ ∨ gb = ∅ then 0
    else if (ga ∪ gb).card = 0 then 0
    else ((ga ∩ gb).card : ℚ) / ((ga ∪ gb).card : ℚ)

/-! ### Generic helpers -/

theorem all_congr_mem {α} {l : List α} {f g : α → Bool} (h : ∀ x ∈ l, f x = g x) :
    l.all f = l.all g := by
  induction l with
  | nil => rfl
  | cons x xs ih =>
    simp only [List.all_cons]
    rw [h x (by simp), ih (fun x hx => h x (by simp [hx]))]

theorem foldl_congr_mem {α β} {l : List α} {f g : β → α → β} {acc : β}
    (h : ∀ x ∈ l, ∀ a, f a x = g a x) : l.foldl f acc = l.foldl g acc := by
  induction l generalizing acc with
  | nil => rfl
  | cons x xs ih =>
    simp only [List.foldl_cons]
    rw [h x (by simp), ih (fun x hx a => h x (by simp [hx]) a)]

theorem filterMap_congr_mem {α β} {l : List α} {f g : α → Option β}
    (h : ∀ x ∈ l, f x = g x) : l.filterMap f = l.filterMap g := by
  induction l with
  | nil => rfl
  | cons x xs ih =>
    simp only [List.filterMap_cons]
    rw [h x (by simp), ih (fun x hx => h x (by simp [hx]))]

theorem strLeB_trans3 : ∀ a b c : String, strLeB a b = true → strLeB b c = true → strLeB a c = true :=
  fun _ _ _ h1 h2 => strLeB_trans h1 h2

theorem serLeB_trans3 : ∀ a b c : Value, serLeB a b = true → serLeB b c = true → serLeB a c = true :=
  fun _ _ _ h1 h2 => lexLe_trans h1 h2

theorem serLeB_total (a b : Value) : (serLeB a b || serLeB b a) = true :=
  lexLe_total_bool (ser a) (ser b)

theorem mergeSort_sorted_key (l : List String) :
    (l.mergeSort strLeB).Pairwise (fun a b => strLeB a b = true) :=
  List.sorted_mergeSort strLeB_trans3 strLeB_total l

theorem mergeSort_sorted_ser (l : List Value) :
    (l.mergeSort serLeB).Pairwise (fun a b => serLeB a b = true) :=
  List.sorted_mergeSort serLeB_trans3 serLeB_total l

theorem mergeSort_eq_of_perm {α} {le : α → α → Bool}
    (tr : ∀ a b c, le a b = true → le b c = true → le a c = true)
    (tot : ∀ a b, (le a b || le b a) = true)
    (anti : ∀ a b, le a b = true → le b a = true → a = b)
    {l₁ l₂ : List α} (h : l₁.Perm l₂) : l₁.mergeSort le = l₂.mergeSort le := by
  haveI : IsAntisymm α (fun a b => le a b = true) := ⟨anti⟩
  apply List.eq_of_perm_of_sorted (r := fun a b => le a b = true)
  · exact ((l₁.mergeSort_perm le).trans h).trans (l₂.mergeSort_perm le).symm
  · exact List.sorted_mergeSort tr tot l₁
  · exact List.sorted_mergeSort tr tot l₂

theorem mergeSort_key_eq_of_perm {l₁ l₂ : List String} (h : l₁.Perm l₂) :
    l₁.mergeSort strLeB = l₂.mergeSort strLeB :=
  mergeSort_eq_of_perm strLeB_trans3 strLeB_total (fun _ _ h1 h2 => strLeB_antisymm h1 h2) h

/-! ### Fuel invariance -/

theorem pyEqF_fuel : ∀ f g (a b : Value), vsize a ≤ f → vsize a ≤ g →
    pyEqF f a b = pyEqF g a b := by
  intro f
  induction f with
  | zero => intro g a b hf _; have := vsize_pos a; omega
  | succ m ih =>
    intro g a b hf hg
    cases g with
    | zero => have := vsize_pos a; omega
    | succ g =>
      cases a with
      | null => cases b <;> simp [pyEqF]
      | bool x => cases b <;> simp [pyEqF]
      | num n => cases b <;> simp [pyEqF]
      | str s => cases b <;> simp [pyEqF]
      | arr xs =>
        cases b <;> simp only [pyEqF]
        case arr ys =>
          congr 1
          apply all_congr_mem
          intro p hp
          have hx : p.1 ∈ xs := (List.of_mem_zip hp).1
          have := vsize_lt_of_mem_arr hx
          exact ih g p.1 p.2 (by omega) (by omega)
      | obj es =>
        cases b <;> simp only [pyEqF]
        case obj fs =>
          congr 1
          apply all_congr_mem
          intro kv hkv
          have := vsize_lt_of_mem_obj hkv
          cases lookupKey fs kv.1 with
          | none => simp
          | some w => simp only; exact ih g kv.2 w (by omega) (by omega)

theorem dictGet_vsize_lt {es : List (String × Value)} {k : String}
    (h : k ∈ es.map Prod.fst) : vsize (dictGet es k) < vsize (Value.obj es) := by
  induction es with
  | nil => simp at h
  | cons kv es ih =>
    simp only [dictGet, lookupKey]
    by_cases hk : kv.1 = k
    · simp only [hk, if_pos rfl, Option.getD_some]
      exact vsize_lt_of_mem_obj (by simp)
    · simp only [if_neg hk]
      have hmem : k ∈ es.map Prod.fst := by
        rcases List.mem_map.mp h with ⟨kw, hkw, hke⟩
        rcases List.mem_cons.mp hkw with h1 | h1
        · exact absurd (h1 ▸ hke) hk
        · exact List.mem_map.mpr ⟨kw, h1, hke⟩
      have := ih hmem
      simp only [dictGet] at this
      simp only [vsize, esize] at this ⊢
      omega

theorem intersectF_fuel : ∀ f g (a b : Value), vsize a ≤ f → vsize a ≤ g →
    intersectF f a b = intersectF g a b := by
  intro f
  induction f with
  | zero => intro g a b hf _; have := vsize_pos a; omega
  | succ m ih =>
    intro g a b hf hg
    cases g with
    | zero => have := vsize_pos a; omega
    | succ g =>
      cases a with
      | null => cases b <;> simp [intersectF]
      | bool x => cases b <;> simp [intersectF]
      | num n => cases b <;> simp [intersectF]
      | str s => cases b <;> simp [intersectF]
      | arr xs => cases b <;> simp [intersectF]
      | obj ea =>
        cases b <;> simp only [intersectF]
        case obj eb =>
          have hfm :
              List.filterMap (fun k =>
                if intersectF m (dictGet ea k) (dictGet eb k) = Value.null then none
                else some (k, intersectF m (dictGet ea k) (dictGet eb k)))
                (((ea.map Prod.fst).dedup.filter
                  (fun k => (eb.map Prod.fst).contains k)).mergeSort strLeB) =
              List.filterMap (fun k =>
                if intersectF g (dictGet ea k) (dictGet eb k) = Value.null then none
                else some (k, intersectF g (dictGet ea k) (dictGet eb k)))
                (((ea.map Prod.fst).dedup.filter
                  (fun k => (eb.map Prod.fst).contains k)).mergeSort strLeB) := by
            apply filterMap_congr_mem
            intro k hk
            have hka : k ∈ ea.map Prod.fst := by
              have := List.mem_mergeSort.mp hk
              exact List.mem_dedup.mp (List.mem_filter.mp this).1
            have := dictGet_vsize_lt hka
            rw [ih g (dictGet ea k) (dictGet eb k)
              (by simp only [vsize] at this hf; omega)
              (by simp only [vsize] at this hg; omega)]
          rw [hfm]

theorem diffF_fuel : ∀ f g (a b : Value) (p : String), vsize a ≤ f → vsize a ≤ g →
    diffF f a b p = diffF g a b p := by
  intro f
  induction f with
  | zero => intro g a b p hf _; have := vsize_pos a; omega
  | succ m ih =>
    intro g a b p hf hg
    cases g with
    | zero => have := vsize_pos a; omega
    | succ g =>
      cases a with
      | null => cases b <;> simp [diffF]
      | bool x => cases b <;> simp [diffF]
      | num n => cases b <;> simp [diffF]
      | str s => cases b <;> simp [diffF]
      | arr xs => cases b <;> simp [diffF]
      | obj ea =>
        cases b <;> simp only [diffF]
        case obj eb =>
          apply foldl_congr_mem
          intro k hk acc
          have hka : k ∈ ea.map Prod.fst := by
            have := List.mem_mergeSort.mp hk
            exact List.mem_dedup.mp (List.mem_filter.mp this).1
          have := dictGet_vsize_lt hka
          rw [ih g (dictGet ea k) (dictGet eb k) (p ++ "." ++ k)
            (by simp only [vsize] at this hf; omega)
            (by simp only [vsize] at this hg; omega)]

/-! ### Lookup and validity lemmas -/

theorem lookupKey_eq_none {es : List (String × Value)} {k : String} :
    lookupKey es k = none ↔ k ∉ es.map Prod.fst := by
  induction es with
  | nil => simp [lookupKey]
  | cons kv es ih =>
    simp only [lookupKey, List.map_cons, List.mem_cons]
    by_cases h : kv.1 = k
    · simp [h]
    · rw [if_neg h, ih]
      constructor
      · intro hn hor
        rcases hor with he | hm
        · exact h he.symm
        · exact hn hm
      · intro hn hm
        exact hn (Or.inr hm)

theorem lookupKey_mem {es : List (String × Value)} {k : String} {v : Value}
    (h : lookupKey es k = some v) : (k, v) ∈ es := by
  induction es with
  | nil => simp [lookupKey] at h
  | cons kv es ih =>
    simp only [lookupKey] at h
    by_cases hk : kv.1 = k
    · rw [if_pos hk] at h
      injection h with h2
      rw [← hk, ← h2]
      exact List.mem_cons_self _ _
    · rw [if_neg hk] at h
      exact List.mem_cons_of_mem _ (ih h)

theorem mem_keys_of_lookupKey {es : List (String × Value)} {k : String} {v : Value}
    (h : lookupKey es k = some v) : k ∈ es.map Prod.fst := by
  have := lookupKey_mem h
  exact List.mem_map.mpr ⟨(k, v), this, rfl⟩

theorem lookupKey_isSome {es : List (String × Value)} {k : String}
    (h : k ∈ es.map Prod.fst) : ∃ v, lookupKey es k = some v := by
  cases hl : lookupKey es k with
  | none => exact absurd h (lookupKey_eq_none.mp hl)
  | some v => exact ⟨v, rfl⟩

theorem dictGet_mem {es : List (String × Value)} {k : String}
    (h : k ∈ es.map Prod.fst) : (k, dictGet es k) ∈ es := by
  obtain ⟨v, hv⟩ := lookupKey_isSome h
  simp only [dictGet, hv, Option.getD_some]
  exact lookupKey_mem hv

theorem lookupKey_of_nodup {es : List (String × Value)} {k : String} {v : Value}
    (hnd : (es.map Prod.fst).Nodup) (h : (k, v) ∈ es) : lookupKey es k = some v := by
  induction es with
  | nil => cases h
  | cons kv es ih =>
    simp only [List.map_cons, List.nodup_cons] at hnd
    rcases List.mem_cons.mp h with h1 | h1
    · simp [lookupKey, ← h1]
    · have hk : kv.1 ≠ k := by
        intro he
        exact hnd.1 (he ▸ List.mem_map.mpr ⟨(k, v), h1, rfl⟩)
      simp only [lookupKey, if_neg hk]
      exact ih hnd.2 h1

theorem dictGet_of_nodup {es : List (String × Value)} {k : String} {v : Value}
    (hnd : (es.map Prod.fst).Nodup) (h : (k, v) ∈ es) : dictGet es k = v := by
  simp [dictGet, lookupKey_of_nodup hnd h]

theorem nodupKeys_iff : ∀ l : List String, nodupKeys l = true ↔ l.Nodup := by
  intro l
  induction l with
  | nil => simp [nodupKeys]
  | cons k ks ih =>
    simp only [nodupKeys, Bool.and_eq_true, Bool.not_eq_true', List.nodup_cons, ih]
    constructor
    · rintro ⟨h1, h2⟩
      refine ⟨fun hm => ?_, h2⟩
      rw [Bool.eq_false_iff] at h1
      exact h1 (List.elem_iff.mpr hm)
    · rintro ⟨h1, h2⟩
      refine ⟨?_, h2⟩
      rw [Bool.eq_false_iff]
      intro hc
      exact h1 (List.elem_iff.mp hc)

theorem validL_iff : ∀ xs : List Value, validL xs = true ↔ ∀ x ∈ xs, validV x = true := by
  intro xs
  induction xs with
  | nil => simp [validL]
  | cons x xs ih => simp [validL, ih]

theorem validE_iff : ∀ es : List (String × Value),
    validE es = true ↔ ∀ kv ∈ es, validV kv.2 = true := by
  intro es
  induction es with
  | nil => simp [validE]
  | cons kv es ih => simp [validE, ih]

theorem validV_arr_iff {xs : List Value} :
    validV (Value.arr xs) = true ↔ ∀ x ∈ xs, validV x = true := by
  simp [validV, validL_iff]

theorem validV_obj_iff {es : List (String × Value)} :
    validV (Value.obj es) = true ↔
      (es.map Prod.fst).Nodup ∧ ∀ kv ∈ es, validV kv.2 = true := by
  simp [validV, nodupKeys_iff, validE_iff]

/-! ### normalize_json structure lemmas -/

theorem normalizeList_eq_map : ∀ xs : List Value, normalizeList xs = xs.map normalize_json := by
  intro xs
  induction xs with
  | nil => rfl
  | cons x xs ih => simp [normalizeList, ih]

theorem normalizeEntries_eq_map : ∀ es : List (String × Value),
    normalizeEntries es = es.map (fun kv => (kv.1, normalize_json kv.2)) := by
  intro es
  induction es with
  | nil => rfl
  | cons kv es ih => simp [normalizeEntries, ih]

theorem map_fst_normalizeEntries (es : List (String × Value)) :
    (normalizeEntries es).map Prod.fst = es.map Prod.fst := by
  rw [normalizeEntries_eq_map, List.map_map]
  rfl

theorem lookupKey_normalizeEntries (es : List (String × Value)) (k : String) :
    lookupKey (normalizeEntries es) k = (lookupKey es k).map normalize_json := by
  induction es with
  | nil => rfl
  | cons kv es ih =>
    simp only [normalizeEntries, lookupKey]
    by_cases h : kv.1 = k
    · simp [h]
    · simp [h, ih]

theorem dictGet_normalizeEntries (es : List (String × Value)) (k : String) :
    dictGet (normalizeEntries es) k = normalize_json (dictGet es k) := by
  simp only [dictGet, lookupKey_normalizeEntries]
  cases lookupKey es k with
  | none => rfl
  | some v => rfl

/-- `normalize_json` on an object, written exactly as the Python comprehension
`{k: normalize_json(value[k]) for k in sorted(value.keys())}`. -/
theorem normalize_obj_spec (es : List (String × Value)) :
    normalize_json (Value.obj es) =
      Value.obj (((es.map Prod.fst).mergeSort strLeB).map
        (fun k => (k, normalize_json (dictGet es k)))) := by
  simp only [normalize_json]
  congr 1
  apply List.map_congr_left
  intro k _
  rw [dictGet_normalizeEntries]

theorem validV_normalize : ∀ n v, vsize v ≤ n → validV v = true →
    validV (normalize_json v) = true := by
  intro n
  induction n with
  | zero => intro v h; have := vsize_pos v; omega
  | succ m ih =>
    intro v hle hv
    cases v with
    | null => exact hv
    | bool b => exact hv
    | num i => exact hv
    | str s => exact hv
    | arr xs =>
      simp only [normalize_json]
      rw [validV_arr_iff]
      intro x hx
      have hx2 : x ∈ normalizeList xs := (List.mem_mergeSort).mp hx
      rw [normalizeList_eq_map] at hx2
      obtain ⟨y, hy, rfl⟩ := List.mem_map.mp hx2
      have := vsize_lt_of_mem_arr hy
      exact ih y (by omega) (validV_arr_iff.mp hv y hy)
    | obj es =>
      rw [normalize_obj_spec, validV_obj_iff]
      obtain ⟨hnd, hvals⟩ := validV_obj_iff.mp hv
      constructor
      · rw [List.map_map]
        have : (Prod.fst ∘ fun k => (k, normalize_json (dictGet es k))) = id := rfl
        rw [this, List.map_id]
        exact (((es.map Prod.fst).mergeSort_perm strLeB).nodup_iff).mpr hnd
      · intro kv hkv
        obtain ⟨k, hk, rfl⟩ := List.mem_map.mp hkv
        have hkeys : k ∈ es.map Prod.fst := (List.mem_mergeSort).mp hk
        have hmem := dictGet_mem hkeys
        have hsz : vsize (dictGet es k) < vsize (Value.obj es) := vsize_lt_of_mem_obj hmem
        exact ih (dictGet es k) (by omega) (hvals _ hmem)

/-! ### Python equality: reflexivity and symmetry -/

theorem zip_self {α : Type} : ∀ xs : List α, List.zip xs xs = xs.map (fun x => (x, x)) := by
  intro xs
  induction xs with
  | nil => rfl
  | cons x xs ih => simp [List.zip_cons_cons, ih]

theorem pyEqF_refl : ∀ f v, vsize v ≤ f → validV v = true → pyEqF f v v = true := by
  intro f
  induction f with
  | zero => intro v h _; have := vsize_pos v; omega
  | succ m ih =>
    intro v hle hv
    cases v with
    | null => rfl
    | bool b => simp [pyEqF]
    | num n => simp [pyEqF]
    | str s => simp [pyEqF]
    | arr xs =>
      simp only [pyEqF, Bool.and_eq_true, beq_iff_eq, List.all_eq_true]
      refine ⟨trivial, ?_⟩
      intro p hp
      rw [zip_self] at hp
      obtain ⟨x, hx, rfl⟩ := List.mem_map.mp hp
      have := vsize_lt_of_mem_arr hx
      exact ih x (by omega) (validV_arr_iff.mp hv x hx)
    | obj es =>
      simp only [pyEqF, Bool.and_eq_true, beq_iff_eq, List.all_eq_true]
      refine ⟨trivial, ?_⟩
      intro kv hkv
      obtain ⟨hnd, hvals⟩ := validV_obj_iff.mp hv
      have hl : lookupKey es kv.1 = some kv.2 := by
        obtain ⟨k, v⟩ := kv
        exact lookupKey_of_nodup hnd hkv
      rw [hl]
      have := vsize_lt_of_mem_obj hkv
      exact ih kv.2 (by omega) (hvals kv hkv)

theorem pyEq_refl {v : Value} (hv : validV v = true) : pyEq v v = true :=
  pyEqF_refl (vsize v) v le_rfl hv

theorem pyEqF_fuelm : ∀ f g (a b : Value), min (vsize a) (vsize b) ≤ f →
    min (vsize a) (vsize b) ≤ g → pyEqF f a b = pyEqF g a b := by
  intro f
  induction f with
  | zero =>
    intro g a b hf _
    have := vsize_pos a
    have := vsize_pos b
    omega
  | succ m ih =>
    intro g a b hf hg
    cases g with
    | zero =>
      have := vsize_pos a
      have := vsize_pos b
      omega
    | succ g =>
      cases a with
      | null => cases b <;> simp [pyEqF]
      | bool x => cases b <;> simp [pyEqF]
      | num n => cases b <;> simp [pyEqF]
      | str s => cases b <;> simp [pyEqF]
      | arr xs =>
        cases b <;> simp only [pyEqF]
        case arr ys =>
          congr 1
          apply all_congr_mem
          intro p hp
          have hx : p.1 ∈ xs := (List.of_mem_zip hp).1
          have hy : p.2 ∈ ys := (List.of_mem_zip hp).2
          have h1 := vsize_lt_of_mem_arr hx
          have h2 := vsize_lt_of_mem_arr hy
          exact ih g p.1 p.2 (by omega) (by omega)
      | obj es =>
        cases b <;> simp only [pyEqF]
        case obj fs =>
          congr 1
          apply all_congr_mem
          intro kv hkv
          have h1 := vsize_lt_of_mem_obj hkv
          cases hl : lookupKey fs kv.1 with
          | none => simp
          | some w =>
            have h2 : vsize w < vsize (Value.obj fs) := vsize_lt_of_mem_obj (lookupKey_mem hl)
            simp only
            exact ih g kv.2 w (by omega) (by omega)

theorem pyEqF_symm_true : ∀ f (a b : Value), validV a = true → validV b = true →
    pyEqF f a b = true → pyEqF f b a = true := by
  intro f
  induction f with
  | zero => intro a b _ _ h; simp [pyEqF] at h
  | succ m ih =>
    intro a b hva hvb h
    cases a with
    | null => cases b <;> simp_all [pyEqF]
    | bool x => cases b <;> simp_all [pyEqF]
    | num n => cases b <;> simp_all [pyEqF]
    | str s => cases b <;> simp_all [pyEqF]
    | arr xs =>
      cases b with
      | null => simp [pyEqF] at h
      | bool y => simp [pyEqF] at h
      | num n => simp [pyEqF] at h
      | str t => simp [pyEqF] at h
      | obj fs => simp [pyEqF] at h
      | arr ys =>
        simp only [pyEqF, Bool.and_eq_true, beq_iff_eq, List.all_eq_true] at h ⊢
        obtain ⟨hlen, hall⟩ := h
        refine ⟨hlen.symm, ?_⟩
        intro p hp
        have hswap : p.swap ∈ List.zip xs ys := by
          rw [← List.zip_swap xs ys] at hp
          obtain ⟨q, hq, rfl⟩ := List.mem_map.mp hp
          simpa using hq
        have hx : p.swap.1 ∈ xs := (List.of_mem_zip hswap).1
        have hy : p.swap.2 ∈ ys := (List.of_mem_zip hswap).2
        have := hall p.swap hswap
        exact ih p.swap.1 p.swap.2 (validV_arr_iff.mp hva _ hx) (validV_arr_iff.mp hvb _ hy) this
    | obj es =>
      cases b with
      | null => simp [pyEqF] at h
      | bool y => simp [pyEqF] at h
      | num n => simp [pyEqF] at h
      | str t => simp [pyEqF] at h
      | arr ys => simp [pyEqF] at h
      | obj fs =>
        simp only [pyEqF, Bool.and_eq_true, beq_iff_eq, List.all_eq_true] at h ⊢
        obtain ⟨hlen, hall⟩ := h
        obtain ⟨hndE, hvalsE⟩ := validV_obj_iff.mp hva
        obtain ⟨hndF, hvalsF⟩ := validV_obj_iff.mp hvb
        have hfound : ∀ kv ∈ es, ∃ w, lookupKey fs kv.1 = some w ∧ pyEqF m kv.2 w = true := by
          intro kv hkv
          have := hall kv hkv
          cases hl : lookupKey fs kv.1 with
          | none => rw [hl] at this; simp at this
          | some w => rw [hl] at this; exact ⟨w, rfl, this⟩
        have hsub : (es.map Prod.fst).toFinset ⊆ (fs.map Prod.fst).toFinset := by
          intro k hk
          rw [List.mem_toFinset] at hk ⊢
          obtain ⟨kv, hkv, rfl⟩ := List.mem_map.mp hk
          obtain ⟨w, hw, _⟩ := hfound kv hkv
          exact mem_keys_of_lookupKey hw
        have hcard : (fs.map Prod.fst).toFinset.card ≤ (es.map Prod.fst).toFinset.card := by
          rw [List.toFinset_card_of_nodup hndE, List.toFinset_card_of_nodup hndF,
            List.length_map, List.length_map, hlen]
        have hset : (es.map Prod.fst).toFinset = (fs.map Prod.fst).toFinset :=
          Finset.eq_of_subset_of_card_le hsub hcard
        refine ⟨hlen.symm, ?_⟩
        intro kw hkw
        have hkmem : kw.1 ∈ es.map Prod.fst := by
          rw [← List.mem_toFinset, hset, List.mem_toFinset]
          exact List.mem_map.mpr ⟨kw, hkw, rfl⟩
        obtain ⟨kv, hkv, hfst⟩ := List.mem_map.mp hkmem
        have hlv : lookupKey es kw.1 = some kv.2 := by
          obtain ⟨k, v⟩ := kv
          subst hfst
          exact lookupKey_of_nodup hndE hkv
        rw [hlv]
        obtain ⟨w, hw, hpe⟩ := hfound kv hkv
        have hwkw : w = kw.2 := by
          obtain ⟨k2, w2⟩ := kw
          rw [hfst] at hw
          rw [lookupKey_of_nodup hndF hkw] at hw
          injection hw with hww
          exact hww.symm
        rw [hwkw] at hpe
        exact ih kv.2 kw.2 (hvalsE kv hkv) (hvalsF _ hkw) hpe

/-! ### Round trip: numbers -/

def headNotDigit : List Char → Prop
  | [] => True
  | c :: _ => c.isDigit = false

theorem digitChar_isDigit : ∀ d : Nat, (digitChar d).isDigit = true := by
  intro d
  rcases d with _ | _ | _ | _ | _ | _ | _ | _ | _ | d <;> rfl

theorem digitVal_digitChar : ∀ d : Nat, d < 10 → digitVal (digitChar d) = d := by
  intro d hd
  rcases d with _ | _ | _ | _ | _ | _ | _ | _ | _ | _ | d <;> first | rfl | omega

theorem takeDigits_append {ds rest : List Char} (hd : ∀ c ∈ ds, c.isDigit = true)
    (hr : headNotDigit rest) : takeDigits (ds ++ rest) = (ds, rest) := by
  induction ds with
  | nil =>
    simp only [List.nil_append]
    cases rest with
    | nil => rfl
    | cons c cs =>
      simp only [headNotDigit] at hr
      simp [takeDigits, hr]
  | cons c cs ih =>
    have hc := hd c (by simp)
    simp only [List.cons_append, takeDigits, hc, if_true, List.append_eq]
    rw [ih (fun x hx => hd x (by simp [hx]))]

theorem digitsToNat_append_last (xs : List Char) (c : Char) :
    digitsToNat (xs ++ [c]) = 10 * digitsToNat xs + digitVal c := by
  simp [digitsToNat, List.foldl_append]

theorem natCharsF_spec : ∀ f n, n < f →
    digitsToNat (natCharsF f n) = n ∧ natCharsF f n ≠ [] ∧
      ∀ c ∈ natCharsF f n, c.isDigit = true := by
  intro f
  induction f with
  | zero => intro n h; omega
  | succ m ih =>
    intro n hn
    by_cases h10 : n < 10
    · simp only [natCharsF, if_pos h10]
      refine ⟨?_, by simp, ?_⟩
      · simp [digitsToNat, digitVal_digitChar n h10]
      · intro c hc
        simp only [List.mem_singleton] at hc
        subst hc
        exact digitChar_isDigit n
    · simp only [natCharsF, if_neg h10]
      have hrec : n / 10 < m := by omega
      obtain ⟨ih1, ih2, ih3⟩ := ih (n / 10) hrec
      refine ⟨?_, by simp, ?_⟩
      · rw [digitsToNat_append_last, ih1, digitVal_digitChar (n % 10) (Nat.mod_lt n (by omega))]
        omega
      · intro c hc
        rcases List.mem_append.mp hc with h | h
        · exact ih3 c h
        · simp only [List.mem_singleton] at h
          subst h
          exact digitChar_isDigit (n % 10)

theorem natChars_spec (n : Nat) :
    digitsToNat (natChars n) = n ∧ natChars n ≠ [] ∧ ∀ c ∈ natChars n, c.isDigit = true :=
  natCharsF_spec (n + 1) n (by omega)

theorem parseNum_natChars (n : Nat) (rest : List Char) (hr : headNotDigit rest) :
    parseNum (natChars n ++ rest) = some ((n : Int), rest) := by
  obtain ⟨h1, h2, h3⟩ := natChars_spec n
  simp only [parseNum, takeDigits_append h3 hr]
  simp [List.isEmpty_iff, h2, h1]

/-! ### Round trip: strings -/

theorem hexVal_hexDigitChar : ∀ d : Nat, d < 16 → hexVal (hexDigitChar d) = d := by
  intro d hd
  rcases d with _ | _ | _ | _ | _ | _ | _ | _ | _ | _ | _ | _ | _ | _ | _ | _ | d <;>
    first | rfl | omega

theorem parseStr_escape : ∀ (s rest : List Char),
    parseStr (escapeChars s ++ '\x22' :: rest) = some (s, rest) := by
  intro s
  induction s with
  | nil =>
    intro rest
    show parseStr ('\x22' :: rest) = some ([], rest)
    rw [parseStr.eq_def]
    simp
  | cons c cs ih =>
    intro rest
    simp only [escapeChars, List.append_assoc]
    by_cases h1 : c = '\x22'
    · subst h1
      simp [escapeChar, parseStr, unescapeChar, ih rest]
    · by_cases h2 : c = '\\'
      · subst h2
        simp [escapeChar, parseStr, unescapeChar, ih rest]
      · by_cases h3 : c.toNat < 32
        · by_cases hb : c = '\x08'
          · subst hb; simp [escapeChar, parseStr, unescapeChar, ih rest]
          · by_cases ht : c = '\x09'
            · subst ht; simp [escapeChar, parseStr, unescapeChar, ih rest]
            · by_cases hn : c = '\x0a'
              · subst hn; simp [escapeChar, parseStr, unescapeChar, ih rest]
              · by_cases hf : c = '\x0c'
                · subst hf; simp [escapeChar, parseStr, unescapeChar, ih rest]
                · by_cases hr : c = '\x0d'
                  · subst hr; simp [escapeChar, parseStr, unescapeChar, ih rest]
                  · simp only [escapeChar, if_neg h1, if_neg h2, if_pos h3, if_neg hb,
                      if_neg ht, if_neg hn, if_neg hf, if_neg hr]
                    have hhi : c.toNat / 16 < 16 := by omega
                    have hlo : c.toNat % 16 < 16 := Nat.mod_lt _ (by omega)
                    have hval :
                        ((hexVal '0' * 16 + hexVal '0') * 16 +
                          hexVal (hexDigitChar (c.toNat / 16))) * 16 +
                          hexVal (hexDigitChar (c.toNat % 16)) = c.toNat := by
                      rw [hexVal_hexDigitChar _ hhi, hexVal_hexDigitChar _ hlo]
                      have := Nat.div_add_mod c.toNat 16
                      simp only [hexVal]
                      omega
                    simp [parseStr, hval, Char.ofNat_toNat, ih rest]
        · simp only [escapeChar, if_neg h1, if_neg h2, if_neg h3]
          simp only [List.singleton_append]
          rw [parseStr.eq_def]
          simp only [if_neg h1, if_neg h2]
          simp [ih rest]

/-! ### Round trip: head-character facts -/

theorem string_mk_data (s : String) : String.mk s.data = s := rfl

theorem digit_ne_lits {c : Char} (h : c.isDigit = true) :
    c ≠ 'n' ∧ c ≠ 't' ∧ c ≠ 'f' ∧ c ≠ '\x22' ∧ c ≠ '[' ∧ c ≠ '\x7b' ∧ c ≠ '-' := by
  refine ⟨?_, ?_, ?_, ?_, ?_, ?_, ?_⟩ <;> (rintro rfl; exact absurd h (by decide))

theorem natChars_head : ∀ n, ∃ c t, natChars n = c :: t ∧ c.isDigit = true := by
  intro n
  obtain ⟨_, h2, h3⟩ := natChars_spec n
  cases hn : natChars n with
  | nil => exact absurd hn h2
  | cons c t => exact ⟨c, t, rfl, h3 c (hn ▸ List.mem_cons_self c t)⟩

theorem ser_head_ne_rb : ∀ v : Value, (ser v).head? ≠ some ']' := by
  intro v
  cases v with
  | null => simp [ser]
  | bool b => cases b <;> simp [ser]
  | num n =>
    cases n with
    | ofNat m =>
      obtain ⟨c, t, hct, hd⟩ := natChars_head m
      simp only [ser, intChars, hct, List.head?_cons]
      intro h
      injection h with h
      exact absurd hd (by subst h; decide)
    | negSucc k => simp [ser, intChars]
  | str s => simp [ser]
  | arr xs => cases xs <;> simp [ser, serItems]
  | obj es => cases es <;> simp [ser, serEntries]

theorem hnd_serItemsTail : ∀ (t : List Value) (r : List Char),
    headNotDigit (serItemsTail t ++ ']' :: r) := by
  intro t r
  cases t with
  | nil => exact (by decide : (']').isDigit = false)
  | cons y t2 => exact (by decide : (',').isDigit = false)

theorem hnd_serEntriesTail : ∀ (t : List (String × Value)) (r : List Char),
    headNotDigit (serEntriesTail t ++ '\x7d' :: r) := by
  intro t r
  cases t with
  | nil => exact (by decide : ('\x7d').isDigit = false)
  | cons kw t2 => exact (by decide : (',').isDigit = false)

theorem ser_head_cons : ∀ v : Value, ∃ c t, ser v = c :: t ∧ c ≠ ']' := by
  intro v
  cases v with
  | null => exact ⟨'n', _, rfl, by decide⟩
  | bool b =>
    cases b with
    | false => exact ⟨'f', _, rfl, by decide⟩
    | true => exact ⟨'t', _, rfl, by decide⟩
  | num n =>
    cases n with
    | ofNat m =>
      obtain ⟨c, t, hct, hd⟩ := natChars_head m
      refine ⟨c, t, hct, ?_⟩
      rintro rfl
      exact absurd hd (by decide)
    | negSucc k => exact ⟨'-', _, rfl, by decide⟩
  | str s => exact ⟨'\x22', _, rfl, by decide⟩
  | arr xs => cases xs <;> exact ⟨'[', _, rfl, by decide⟩
  | obj es => cases es <;> exact ⟨'\x7b', _, rfl, by decide⟩

theorem parseV_succ_cons (f : Nat) (c : Char) (cs2 : List Char) :
    parseV (f + 1) (c :: cs2) =
      (if c = 'n' then
        match cs2 with
        | 'u' :: 'l' :: 'l' :: rest => some (.null, rest)
        | _ => none
      else if c = 't' then
        match cs2 with
        | 'r' :: 'u' :: 'e' :: rest => some (.bool true, rest)
        | _ => none
      else if c = 'f' then
        match cs2 with
        | 'a' :: 'l' :: 's' :: 'e' :: rest => some (.bool false, rest)
        | _ => none
      else if c = '\x22' then (parseStr cs2).map (fun p => (.str (String.mk p.1), p.2))
      else if c = '[' then
        if cs2.head? = some ']' then some (.arr [], cs2.tail)
        else (parseItems f cs2).map (fun p => (.arr p.1, p.2))
      else if c = '\x7b' then
        if cs2.head? = some '\x7d' then some (.obj [], cs2.tail)
        else (parseFields f cs2).map (fun p => (.obj p.1, p.2))
      else if c = '-' then (parseNum cs2).map (fun p => (.num (-p.1), p.2))
      else if c.isDigit then (parseNum (c :: cs2)).map (fun p => (.num p.1, p.2))
      else none) := rfl

theorem parseItems_succ (f : Nat) (cs : List Char) :
    parseItems (f + 1) cs =
      (match parseV f cs with
      | some (v, ',' :: rest) => (parseItems f rest).map (fun p => (v :: p.1, p.2))
      | some (v, ']' :: rest) => some ([v], rest)
      | _ => none) := rfl

theorem parseFields_succ_quote (f : Nat) (rest : List Char) :
    parseFields (f + 1) ('\x22' :: rest) =
      (match parseStr rest with
      | some (k, ':' :: rest2) =>
        match parseV f rest2 with
        | some (v, ',' :: rest3) => (parseFields f rest3).map (fun p => ((String.mk k, v) :: p.1, p.2))
        | some (v, '\x7d' :: rest3) => some ([(String.mk k, v)], rest3)
        | _ => none
      | _ => none) := rfl

theorem parse_ser_aux : ∀ f,
    (∀ (v : Value) (rest : List Char), vsize v ≤ f → headNotDigit rest →
      parseV f (ser v ++ rest) = some (v, rest)) ∧
    (∀ (xs : List Value) (rest : List Char), xs ≠ [] → lsize xs ≤ f →
      parseItems f (serItems xs ++ ']' :: rest) = some (xs, rest)) ∧
    (∀ (es : List (String × Value)) (rest : List Char), es ≠ [] → esize es ≤ f →
      parseFields f (serEntries es ++ '\x7d' :: rest) = some (es, rest)) := by
  intro f
  induction f with
  | zero =>
    refine ⟨?_, ?_, ?_⟩
    · intro v rest h _
      have := vsize_pos v
      omega
    · intro xs rest hne h
      cases xs with
      | nil => exact absurd rfl hne
      | cons x t =>
        have := vsize_pos x
        simp only [lsize] at h
        omega
    · intro es rest hne h
      cases es with
      | nil => exact absurd rfl hne
      | cons kv t =>
        have := vsize_pos kv.2
        simp only [esize] at h
        omega
  | succ f ih =>
    obtain ⟨ih1, ih2, ih3⟩ := ih
    refine ⟨?_, ?_, ?_⟩
    · intro v rest hsz hrest
      cases v with
      | null => rfl
      | bool b => cases b <;> rfl
      | num n =>
        cases n with
        | ofNat m =>
          obtain ⟨c, t, hct, hcd⟩ := natChars_head m
          obtain ⟨hn, ht2, hf2, hq2, hlb, hob, hmi⟩ := digit_ne_lits hcd
          show parseV (f + 1) (natChars m ++ rest) = some (Value.num (Int.ofNat m), rest)
          rw [hct, List.cons_append, parseV_succ_cons, if_neg hn, if_neg ht2, if_neg hf2,
            if_neg hq2, if_neg hlb, if_neg hob, if_neg hmi, if_pos hcd, ← List.cons_append,
            ← hct, parseNum_natChars m rest hrest]
          rfl
        | negSucc k =>
          show parseV (f + 1) ('-' :: (natChars (k + 1) ++ rest)) =
            some (Value.num (Int.negSucc k), rest)
          show (parseNum (natChars (k + 1) ++ rest)).map (fun p => (Value.num (-p.1), p.2)) =
            some (Value.num (Int.negSucc k), rest)
          rw [parseNum_natChars (k + 1) rest hrest]
          have hval : -((((k : Nat) + 1 : Nat) : Int)) = Int.negSucc k := by
            rw [Int.negSucc_eq]
            push_cast
            ring
          show some (Value.num (-((((k : Nat) + 1 : Nat) : Int))), rest) =
            some (Value.num (Int.negSucc k), rest)
          rw [hval]
      | str s =>
        have hre : ser (Value.str s) ++ rest = '\x22' :: (escapeChars s.data ++ '\x22' :: rest) := by
          simp [ser, List.append_assoc]
        rw [hre]
        show (parseStr (escapeChars s.data ++ '\x22' :: rest)).map
          (fun p => (Value.str (String.mk p.1), p.2)) = some (Value.str s, rest)
        rw [parseStr_escape s.data rest]
        rfl
      | arr xs =>
        cases xs with
        | nil => rfl
        | cons x t =>
          have hre : ser (Value.arr (x :: t)) ++ rest = '[' :: (serItems (x :: t) ++ ']' :: rest) := by
            simp [ser, List.append_assoc]
          rw [hre]
          show (if (serItems (x :: t) ++ ']' :: rest).head? = some ']' then
              some (Value.arr [], (serItems (x :: t) ++ ']' :: rest).tail)
            else (parseItems f (serItems (x :: t) ++ ']' :: rest)).map
              (fun p => (Value.arr p.1, p.2))) = some (Value.arr (x :: t), rest)
          obtain ⟨c, t2, hct, hne⟩ := ser_head_cons x
          have hcond : (serItems (x :: t) ++ ']' :: rest).head? ≠ some ']' := by
            simp only [serItems, hct, List.cons_append, List.append_assoc, List.head?_cons]
            simp [hne]
          rw [if_neg hcond, ih2 (x :: t) rest (by simp) (by
            simp only [vsize] at hsz
            omega)]
          rfl
      | obj es =>
        cases es with
        | nil => rfl
        | cons kv t =>
          have hre : ser (Value.obj (kv :: t)) ++ rest =
              '\x7b' :: (serEntries (kv :: t) ++ '\x7d' :: rest) := by
            simp [ser, List.append_assoc]
          rw [hre]
          show (if (serEntries (kv :: t) ++ '\x7d' :: rest).head? = some '\x7d' then
              some (Value.obj [], (serEntries (kv :: t) ++ '\x7d' :: rest).tail)
            else (parseFields f (serEntries (kv :: t) ++ '\x7d' :: rest)).map
              (fun p => (Value.obj p.1, p.2))) = some (Value.obj (kv :: t), rest)
          have hcond : (serEntries (kv :: t) ++ '\x7d' :: rest).head? ≠ some '\x7d' := by
            simp [serEntries, serKey]
          rw [if_neg hcond, ih3 (kv :: t) rest (by simp) (by
            simp only [vsize] at hsz
            omega)]
          rfl
    · intro xs rest hne hsz
      cases xs with
      | nil => exact absurd rfl hne
      | cons x t =>
        have hx : vsize x ≤ f := by
          have := vsize_pos x
          simp only [lsize] at hsz
          omega
        rw [parseItems_succ]
        have hl1 : serItems (x :: t) ++ ']' :: rest = ser x ++ (serItemsTail t ++ ']' :: rest) := by
          simp [serItems, List.append_assoc]
        rw [hl1, ih1 x (serItemsTail t ++ ']' :: rest) hx (hnd_serItemsTail t rest)]
        cases t with
        | nil => rfl
        | cons y t2 =>
          show (parseItems f ((ser y ++ serItemsTail t2) ++ ']' :: rest)).map
              (fun p => (x :: p.1, p.2)) = some (x :: y :: t2, rest)
          have hl2 : (ser y ++ serItemsTail t2) ++ ']' :: rest =
              serItems (y :: t2) ++ ']' :: rest := rfl
          rw [hl2, ih2 (y :: t2) rest (by simp) (by
            have := vsize_pos x
            simp only [lsize] at hsz ⊢
            omega)]
          rfl
    · intro es rest hne hsz
      cases es with
      | nil => exact absurd rfl hne
      | cons kv t =>
        obtain ⟨k, v⟩ := kv
        have hv : vsize v ≤ f := by
          have := vsize_pos v
          simp only [esize] at hsz
          omega
        have hl : serEntries ((k, v) :: t) ++ '\x7d' :: rest =
            '\x22' :: (escapeChars k.data ++ '\x22' ::
              (':' :: (ser v ++ (serEntriesTail t ++ '\x7d' :: rest)))) := by
          simp [serEntries, serKey, List.append_assoc]
        rw [hl, parseFields_succ_quote,
          parseStr_escape k.data (':' :: (ser v ++ (serEntriesTail t ++ '\x7d' :: rest)))]
        show (match parseV f (ser v ++ (serEntriesTail t ++ '\x7d' :: rest)) with
          | some (v2, ',' :: rest3) =>
            (parseFields f rest3).map (fun p => ((String.mk k.data, v2) :: p.1, p.2))
          | some (v2, '\x7d' :: rest3) => some ([(String.mk k.data, v2)], rest3)
          | _ => none) = some ((k, v) :: t, rest)
        rw [ih1 v (serEntriesTail t ++ '\x7d' :: rest) hv (hnd_serEntriesTail t rest)]
        cases t with
        | nil => rfl
        | cons kw t2 =>
          show (parseFields f ((serKey kw.1 ++ ser kw.2 ++ serEntriesTail t2) ++
              '\x7d' :: rest)).map (fun p => ((String.mk k.data, v) :: p.1, p.2)) =
              some ((k, v) :: kw :: t2, rest)
          have hse : (serKey kw.1 ++ ser kw.2 ++ serEntriesTail t2) ++ '\x7d' :: rest =
              serEntries (kw :: t2) ++ '\x7d' :: rest := rfl
          rw [hse, ih3 (kw :: t2) rest (by simp) (by
            have := vsize_pos v
            simp only [esize] at hsz ⊢
            omega)]
          rfl

theorem ser_inj {v w : Value} (h : ser v = ser w) : v = w := by
  have h1 := (parse_ser_aux (vsize v + vsize w)).1 v [] (by omega) trivial
  have h2 := (parse_ser_aux (vsize v + vsize w)).1 w [] (by omega) trivial
  rw [List.append_nil] at h1 h2
  rw [h, h2] at h1
  injection h1 with h3
  injection h3 with h4 h5
  exact h4.symm

theorem serLeB_antisymm {a b : Value} (h1 : serLeB a b = true) (h2 : serLeB b a = true) :
    a = b :=
  ser_inj (lexLe_antisymm h1 h2)

theorem mergeSort_ser_eq_of_perm {l₁ l₂ : List Value} (h : l₁.Perm l₂) :
    l₁.mergeSort serLeB = l₂.mergeSort serLeB :=
  mergeSort_eq_of_perm serLeB_trans3 serLeB_total (fun _ _ h1 h2 => serLeB_antisymm h1 h2) h

theorem serItemsTail_len : ∀ t : List Value, (∀ x ∈ t, vsize x ≤ (ser x).length) →
    lsize t ≤ (serItemsTail t).length := by
  intro t
  induction t with
  | nil => intro _; simp [lsize, serItemsTail]
  | cons y t2 ih =>
    intro h
    have h1 := h y (by simp)
    have h2 := ih (fun x hx => h x (by simp [hx]))
    simp only [lsize, serItemsTail, List.length_cons, List.length_append]
    omega

theorem serEntriesTail_len : ∀ t : List (String × Value),
    (∀ kv ∈ t, vsize kv.2 ≤ (ser kv.2).length) →
    esize t ≤ (serEntriesTail t).length := by
  intro t
  induction t with
  | nil => intro _; simp [esize, serEntriesTail]
  | cons kv t2 ih =>
    intro h
    have h1 := h kv (by simp)
    have h2 := ih (fun x hx => h x (by simp [hx]))
    simp only [esize, serEntriesTail, List.length_cons, List.length_append, serKey]
    omega

theorem vsize_le_ser_length : ∀ n (v : Value), vsize v ≤ n → vsize v ≤ (ser v).length := by
  intro n
  induction n with
  | zero => intro v h; have := vsize_pos v; omega
  | succ m ih =>
    intro v hle
    cases v with
    | null => simp [ser, vsize]
    | bool b => cases b <;> simp [ser, vsize]
    | num i =>
      cases i with
      | ofNat k =>
        obtain ⟨c, t, hct, _⟩ := natChars_head k
        simp only [ser, intChars, hct, vsize, List.length_cons]
        omega
      | negSucc k => simp [ser, intChars, vsize]
    | str s => simp [ser, vsize]
    | arr xs =>
      have hel : ∀ x ∈ xs, vsize x ≤ (ser x).length := by
        intro x hx
        have := vsize_lt_of_mem_arr hx
        exact ih x (by simp only [vsize] at this hle ⊢; omega)
      cases xs with
      | nil => simp [ser, vsize, lsize, serItems]
      | cons x t =>
        have h1 := hel x (by simp)
        have h2 := serItemsTail_len t (fun x hx => hel x (by simp [hx]))
        simp only [ser, vsize, lsize, serItems, List.length_cons, List.length_append]
        omega
    | obj es =>
      have hel : ∀ kv ∈ es, vsize kv.2 ≤ (ser kv.2).length := by
        intro kv hkv
        have := vsize_lt_of_mem_obj hkv
        exact ih kv.2 (by simp only [vsize] at this hle ⊢; omega)
      cases es with
      | nil => simp [ser, vsize, esize, serEntries]
      | cons kv t =>
        have h1 := hel kv (by simp)
        have h2 := serEntriesTail_len t (fun x hx => hel x (by simp [hx]))
        simp only [ser, vsize, esize, serEntries, serKey, List.length_cons, List.length_append]
        omega

theorem loads_ser (v : Value) : loads (ser v) = some v := by
  have hp := (parse_ser_aux ((ser v).length + 1)).1 v []
    (by have := vsize_le_ser_length (vsize v) v le_rfl; omega) trivial
  rw [List.append_nil] at hp
  simp only [loads, hp]

theorem fp_inj {x y : Value} (h : fp x = fp y) : normalize_json x = normalize_json y :=
  ser_inj h

theorem loads_fp (v : Value) : loads (fp v) = some (normalize_json v) := loads_ser _

/-! ### Idempotence of canonicalization -/

theorem dictGet_map_built : ∀ (ks : List String) (f : String → Value) (k : String),
    k ∈ ks → dictGet (ks.map (fun k => (k, f k))) k = f k := by
  intro ks f k hk
  induction ks with
  | nil => cases hk
  | cons k0 ks ih =>
    simp only [List.map_cons, dictGet, lookupKey]
    by_cases h : k0 = k
    · simp [h]
    · simp only [if_neg h]
      rcases List.mem_cons.mp hk with h1 | h1
      · exact absurd h1.symm h
      · exact ih h1

theorem mergeSort_key_idem (l : List String) :
    (l.mergeSort strLeB).mergeSort strLeB = l.mergeSort strLeB :=
  List.mergeSort_of_sorted (mergeSort_sorted_key l)

theorem mergeSort_ser_idem (l : List Value) :
    (l.mergeSort serLeB).mergeSort serLeB = l.mergeSort serLeB :=
  List.mergeSort_of_sorted (mergeSort_sorted_ser l)

theorem normalize_idem_aux : ∀ n (v : Value), vsize v ≤ n →
    normalize_json (normalize_json v) = normalize_json v := by
  intro n
  induction n with
  | zero => intro v h; have := vsize_pos v; omega
  | succ m ih =>
    intro v hle
    cases v with
    | null => rfl
    | bool b => rfl
    | num i => rfl
    | str s => rfl
    | arr xs =>
      show normalize_json (.arr ((normalizeList xs).mergeSort serLeB)) = _
      simp only [normalize_json]
      congr 1
      have hmap : normalizeList ((normalizeList xs).mergeSort serLeB) =
          (normalizeList xs).mergeSort serLeB := by
        rw [normalizeList_eq_map]
        apply List.map_congr_left ?_ |>.trans (List.map_id _)
        intro y hy
        have hy2 : y ∈ normalizeList xs := (List.mem_mergeSort).mp hy
        rw [normalizeList_eq_map] at hy2
        obtain ⟨x, hx, rfl⟩ := List.mem_map.mp hy2
        have := vsize_lt_of_mem_arr hx
        exact ih x (by simp only [vsize] at hle this; omega)
      rw [hmap, mergeSort_ser_idem]
    | obj es =>
      rw [normalize_obj_spec]
      rw [normalize_obj_spec]
      congr 1
      have hfst : ((((es.map Prod.fst).mergeSort strLeB).map
          (fun k => (k, normalize_json (dictGet es k)))).map Prod.fst) =
          (es.map Prod.fst).mergeSort strLeB := by
        rw [List.map_map]
        exact List.map_id _
      rw [hfst, mergeSort_key_idem]
      apply List.map_congr_left
      intro k hk
      have hkm : k ∈ es.map Prod.fst := (List.mem_mergeSort).mp hk
      rw [dictGet_map_built _ _ _ hk]
      have hmem := dictGet_mem hkm
      have hsz : vsize (dictGet es k) < vsize (Value.obj es) := vsize_lt_of_mem_obj hmem
      rw [ih (dictGet es k) (by simp only [vsize] at hle hsz; omega)]

/-! ### Order-independence of canonicalization -/

mutual

/-- Two trees differ only by object-entry insertion order and array element
order, recursively at any depth. -/
inductive PermEquiv : Value → Value → Prop where
  | null : PermEquiv .null .null
  | bool (b : Bool) : PermEquiv (.bool b) (.bool b)
  | num (n : Int) : PermEquiv (.num n) (.num n)
  | str (s : String) : PermEquiv (.str s) (.str s)
  | arr {xs ys zs : List Value} : ValuesEquiv xs ys → ys.Perm zs →
      PermEquiv (.arr xs) (.arr zs)
  | obj {es fs gs : List (String × Value)} : EntriesEquiv es fs → fs.Perm gs →
      PermEquiv (.obj es) (.obj gs)

/-- Pointwise `PermEquiv` on lists of values. -/
inductive ValuesEquiv : List Value → List Value → Prop where
  | nil : ValuesEquiv [] []
  | cons {x y : Value} {xs ys : List Value} : PermEquiv x y → ValuesEquiv xs ys →
      ValuesEquiv (x :: xs) (y :: ys)

/-- Pointwise key-preserving `PermEquiv` on entry lists. -/
inductive EntriesEquiv : List (String × Value) → List (String × Value) → Prop where
  | nil : EntriesEquiv [] []
  | cons {k : String} {v v2 : Value} {es fs : List (String × Value)} :
      PermEquiv v v2 → EntriesEquiv es fs → EntriesEquiv ((k, v) :: es) ((k, v2) :: fs)

end

theorem valuesEquiv_refl_of : ∀ {xs : List Value}, (∀ x ∈ xs, PermEquiv x x) →
    ValuesEquiv xs xs := by
  intro xs h
  induction xs with
  | nil => exact ValuesEquiv.nil
  | cons x t ih => exact ValuesEquiv.cons (h x (by simp)) (ih (fun x hx => h x (by simp [hx])))

theorem entriesEquiv_refl_of : ∀ {es : List (String × Value)},
    (∀ kv ∈ es, PermEquiv kv.2 kv.2) → EntriesEquiv es es := by
  intro es h
  induction es with
  | nil => exact EntriesEquiv.nil
  | cons kv t ih =>
    obtain ⟨k, v⟩ := kv
    exact EntriesEquiv.cons (h (k, v) (by simp)) (ih (fun x hx => h x (by simp [hx])))

theorem permEquiv_refl_aux : ∀ n (v : Value), vsize v ≤ n → PermEquiv v v := by
  intro n
  induction n with
  | zero => intro v h; have := vsize_pos v; omega
  | succ m ih =>
    intro v hle
    cases v with
    | null => exact PermEquiv.null
    | bool b => exact PermEquiv.bool b
    | num i => exact PermEquiv.num i
    | str s => exact PermEquiv.str s
    | arr xs =>
      refine PermEquiv.arr (valuesEquiv_refl_of ?_) (List.Perm.refl xs)
      intro x hx
      have := vsize_lt_of_mem_arr hx
      exact ih x (by simp only [vsize] at this hle; omega)
    | obj es =>
      refine PermEquiv.obj (entriesEquiv_refl_of ?_) (List.Perm.refl es)
      intro kv hkv
      have := vsize_lt_of_mem_obj hkv
      exact ih kv.2 (by simp only [vsize] at this hle; omega)

theorem permEquiv_refl (v : Value) : PermEquiv v v := permEquiv_refl_aux (vsize v) v le_rfl

theorem entries_fst_eq : ∀ {es fs : List (String × Value)}, EntriesEquiv es fs →
    es.map Prod.fst = fs.map Prod.fst := by
  intro es
  induction es with
  | nil => intro fs h; cases h; rfl
  | cons kv es ih =>
    intro fs h
    cases h with
    | cons hpe hrest => simp [ih hrest]

theorem entries_mem : ∀ {es fs : List (String × Value)}, EntriesEquiv es fs →
    ∀ {k : String} {v : Value}, (k, v) ∈ es → ∃ v2, (k, v2) ∈ fs ∧ PermEquiv v v2 := by
  intro es
  induction es with
  | nil => intro fs h k v hm; cases hm
  | cons kv es ih =>
    intro fs h k v hm
    cases h with
    | cons hpe hrest =>
      rename_i k2 w w2 fs2
      rcases List.mem_cons.mp hm with h1 | h1
      · injection h1 with hk hv
        subst hk
        subst hv
        exact ⟨w2, List.mem_cons_self _ _, hpe⟩
      · obtain ⟨v2, hv2, hpe2⟩ := ih hrest h1
        exact ⟨v2, List.mem_cons_of_mem _ hv2, hpe2⟩

theorem map_norm_values : ∀ {xs ys : List Value}, ValuesEquiv xs ys →
    (∀ x ∈ xs, ∀ b, PermEquiv x b → normalize_json x = normalize_json b) →
    xs.map normalize_json = ys.map normalize_json := by
  intro xs
  induction xs with
  | nil => intro ys h _; cases h; rfl
  | cons x t ih =>
    intro ys h hrec
    cases h with
    | cons hxy hrest =>
      simp only [List.map_cons]
      rw [hrec x (by simp) _ hxy, ih hrest (fun x hx b hpe => hrec x (by simp [hx]) b hpe)]

theorem normalize_permEquiv_aux : ∀ n (a b : Value), vsize a ≤ n → validV a = true →
    PermEquiv a b → normalize_json a = normalize_json b := by
  intro n
  induction n with
  | zero => intro a b h _ _; have := vsize_pos a; omega
  | succ m ih =>
    intro a b hle hva hpe
    cases hpe with
    | null => rfl
    | bool b => rfl
    | num n => rfl
    | str s => rfl
    | arr hf hp =>
      rename_i xs ys zs
      simp only [normalize_json]
      congr 1
      apply mergeSort_ser_eq_of_perm
      rw [normalizeList_eq_map, normalizeList_eq_map]
      have hmap : xs.map normalize_json = ys.map normalize_json := by
        apply map_norm_values hf
        intro x hx b hpe2
        have := vsize_lt_of_mem_arr hx
        exact ih x b (by simp only [vsize] at this hle; omega) (validV_arr_iff.mp hva x hx) hpe2
      rw [hmap]
      exact hp.map normalize_json
    | obj hf hp =>
      rename_i es fs gs
      rw [normalize_obj_spec, normalize_obj_spec]
      have hkeys : (gs.map Prod.fst).mergeSort strLeB = (es.map Prod.fst).mergeSort strLeB := by
        apply mergeSort_key_eq_of_perm
        rw [entries_fst_eq hf]
        exact (hp.map Prod.fst).symm
      rw [hkeys]
      congr 1
      apply List.map_congr_left
      intro k hk
      have hkm : k ∈ es.map Prod.fst := List.mem_mergeSort.mp hk
      obtain ⟨hnd, hvals⟩ := validV_obj_iff.mp hva
      have hmem : (k, dictGet es k) ∈ es := dictGet_mem hkm
      obtain ⟨v2, hv2f, hpe2⟩ := entries_mem hf hmem
      have hv2g : (k, v2) ∈ gs := (List.Perm.mem_iff hp).mp hv2f
      have hndg : (gs.map Prod.fst).Nodup := by
        have hperm : (fs.map Prod.fst).Perm (gs.map Prod.fst) := hp.map _
        have hndf : (fs.map Prod.fst).Nodup := by
          rw [← entries_fst_eq hf]
          exact hnd
        exact hperm.nodup_iff.mp hndf
      rw [dictGet_of_nodup hndg hv2g]
      have hszd : vsize (dictGet es k) < vsize (Value.obj es) := vsize_lt_of_mem_obj hmem
      rw [ih (dictGet es k) v2 (by simp only [vsize] at hszd hle; omega) (hvals _ hmem) hpe2]

theorem normalize_permEquiv {a b : Value} (hva : validV a = true) (hpe : PermEquiv a b) :
    normalize_json a = normalize_json b :=
  normalize_permEquiv_aux (vsize a) a b le_rfl hva hpe

/-! ### Similarity score bounds -/

theorem similarity_nonneg (a b : Value) : 0 ≤ similarity_score a b := by
  simp only [similarity_score]
  split
  · norm_num
  · split
    · norm_num
    · split
      · norm_num
      · split
        · norm_num
        · positivity

theorem similarity_le_one (a b : Value) : similarity_score a b ≤ 1 := by
  simp only [similarity_score]
  split
  · norm_num
  · split
    · norm_num
    · split
      · norm_num
      · split
        · norm_num
        · rename_i hcard
          rw [div_le_one (by positivity)]
          have hsub : (ngrams (ser (normalize_json a)) ∩ ngrams (ser (normalize_json b))).card ≤
              (ngrams (ser (normalize_json a)) ∪ ngrams (ser (normalize_json b))).card :=
            Finset.card_le_card
              (fun x hx => Finset.mem_union_left _ (Finset.mem_of_mem_inter_left hx))
          exact_mod_cast hsub

theorem similarity_of_norm_eq {a b : Value} (hva : validV a = true)
    (h : normalize_json a = normalize_json b) : similarity_score a b = 1 := by
  simp only [similarity_score, ← h]
  rw [if_pos (pyEq_refl (validV_normalize (vsize a) a le_rfl hva))]

/-! ### Multiset intersection of arrays -/

/-- Number of elements of `l` whose canonical fingerprint is `k`. -/
def countFp (k : List Char) (l : List Value) : Nat := l.countP (fun x => fp x == k)

/-- Number of elements of `l` whose canonical form is `c`. -/
def countNorm (c : Value) (l : List Value) : Nat := (l.map normalize_json).count c

theorem countFp_eq_countNorm (c : Value) (l : List Value) :
    countFp (ser c) l = countNorm c l := by
  simp only [countFp, countNorm, List.count_eq_countP, List.countP_map]
  apply List.countP_congr
  intro x _
  simp only [Function.comp, beq_iff_eq]
  constructor
  · intro h
    exact ser_inj h
  · intro h
    show ser (normalize_json x) = ser c
    rw [h]

theorem countFp_cons (k : List Char) (x : Value) (l : List Value) :
    countFp k (x :: l) = countFp k l + (if fp x = k then 1 else 0) := by
  simp only [countFp, List.countP_cons, beq_iff_eq]

/-- Remaining multiplicity of fingerprint `k` in the working map. -/
def mlen (m : List (List Char × List Value)) (k : List Char) : Nat :=
  ((bget m k).getD []).length

theorem mlen_setdefaultApp (m : List (List Char × List Value)) (k k2 : List Char) (item : Value) :
    mlen (setdefaultApp m k item) k2 = mlen m k2 + (if k = k2 then 1 else 0) := by
  induction m with
  | nil =>
    by_cases h : k = k2 <;> simp [setdefaultApp, mlen, bget, h]
  | cons kv m ih =>
    simp only [setdefaultApp]
    by_cases h1 : kv.1 = k
    · simp only [if_pos h1, mlen, bget]
      by_cases h2 : kv.1 = k2
      · rw [if_pos h2, if_pos h2]
        subst h1
        simp [h2]
      · rw [if_neg h2, if_neg h2]
        have : ¬k = k2 := by rw [← h1]; exact h2
        simp [mlen, this]
    · simp only [if_neg h1, mlen, bget]
      by_cases h2 : kv.1 = k2
      · rw [if_pos h2, if_pos h2]
        have : ¬k = k2 := fun he => h1 (he ▸ h2)
        simp [this]
      · rw [if_neg h2, if_neg h2]
        exact ih

theorem mlen_buildStep (xs : List Value) :
    ∀ (m : List (List Char × List Value)) (k : List Char),
    mlen (xs.foldl (fun m item => setdefaultApp m (fp item) item) m) k =
      mlen m k + countFp k xs := by
  induction xs with
  | nil => intro m k; simp [countFp]
  | cons x t ih =>
    intro m k
    simp only [List.foldl_cons]
    rw [ih, mlen_setdefaultApp, countFp_cons]
    omega

theorem mlen_buildMapA (xs : List Value) (k : List Char) :
    mlen (buildMapA xs) k = countFp k xs := by
  simp only [buildMapA]
  rw [mlen_buildStep]
  simp [mlen, bget]

theorem bget_eq_none {α : Type} {m : List (List Char × α)} {k : List Char}
    (h : k ∉ m.map Prod.fst) : bget m k = none := by
  induction m with
  | nil => rfl
  | cons kv m ih =>
    simp only [List.map_cons, List.mem_cons] at h
    push_neg at h
    have hne : ¬kv.1 = k := fun he => h.1 he.symm
    simp only [bget, if_neg hne]
    exact ih h.2

theorem mlen_consumeOne {m : List (List Char × List Value)} (hnd : (m.map Prod.fst).Nodup)
    (k k2 : List Char) :
    mlen (consumeOne m k) k2 = mlen m k2 - (if k = k2 then 1 else 0) := by
  induction m with
  | nil => by_cases h : k = k2 <;> simp [consumeOne, mlen, bget, h]
  | cons kv m ih =>
    simp only [List.map_cons, List.nodup_cons] at hnd
    simp only [consumeOne]
    by_cases h1 : kv.1 = k
    · rw [if_pos h1]
      by_cases h2 : kv.1 = k2
      · have hk : k = k2 := h1 ▸ h2
        rw [if_pos hk]
        by_cases hemp : kv.2.dropLast.isEmpty
        · rw [if_pos hemp]
          rw [List.isEmpty_iff] at hemp
          have hlen : kv.2.length ≤ 1 := by
            have := congrArg List.length hemp
            simp only [List.length_dropLast, List.length_nil] at this
            omega
          have hbn : bget m k2 = none := by
            apply bget_eq_none
            rw [← h2]
            exact hnd.1
          simp only [mlen, bget, if_pos h2, hbn, Option.getD_some, Option.getD_none,
            List.length_nil]
          omega
        · rw [if_neg hemp]
          simp only [mlen, bget, if_pos h2, Option.getD_some, List.length_dropLast]
      · have hk : ¬k = k2 := fun he => h2 (h1.trans he)
        rw [if_neg hk]
        by_cases hemp : kv.2.dropLast.isEmpty
        · rw [if_pos hemp]
          simp [mlen, bget, if_neg h2]
        · rw [if_neg hemp]
          simp [mlen, bget, if_neg h2]
    · rw [if_neg h1]
      simp only [mlen, bget]
      by_cases h2 : kv.1 = k2
      · have hk : ¬k = k2 := fun he => h1 (he ▸ h2)
        simp [if_pos h2, hk]
      · simp only [if_neg h2]
        exact ih hnd.2

theorem keys_setdefaultApp (m : List (List Char × List Value)) (k : List Char) (item : Value) :
    (setdefaultApp m k item).map Prod.fst =
      if k ∈ m.map Prod.fst then m.map Prod.fst else m.map Prod.fst ++ [k] := by
  induction m with
  | nil => simp [setdefaultApp]
  | cons kv m ih =>
    simp only [setdefaultApp]
    by_cases h1 : kv.1 = k
    · have hmem : k ∈ (kv :: m).map Prod.fst := by simp [← h1]
      rw [if_pos h1, if_pos hmem]
      simp
    · rw [if_neg h1]
      simp only [List.map_cons, ih]
      by_cases h2 : k ∈ m.map Prod.fst
      · have hmem : k ∈ kv.1 :: m.map Prod.fst := by simp [h2]
        rw [if_pos h2, if_pos hmem]
      · have hmem : k ∉ kv.1 :: m.map Prod.fst := by
          simp only [List.mem_cons]
          push_neg
          exact ⟨fun he => h1 he.symm, h2⟩
        rw [if_neg h2, if_neg hmem]
        simp

theorem nodup_buildStep (xs : List Value) :
    ∀ m : List (List Char × List Value), (m.map Prod.fst).Nodup →
    ((xs.foldl (fun m item => setdefaultApp m (fp item) item) m).map Prod.fst).Nodup := by
  induction xs with
  | nil => intro m h; exact h
  | cons x t ih =>
    intro m h
    simp only [List.foldl_cons]
    apply ih
    rw [keys_setdefaultApp]
    by_cases h2 : fp x ∈ m.map Prod.fst
    · simpa [h2] using h
    · simp only [if_neg h2]
      simp [List.nodup_append, h, h2]

theorem nodup_buildMapA (xs : List Value) : ((buildMapA xs).map Prod.fst).Nodup :=
  nodup_buildStep xs [] (by simp)

theorem keys_consumeOne_sublist (m : List (List Char × List Value)) (k : List Char) :
    List.Sublist ((consumeOne m k).map Prod.fst) (m.map Prod.fst) := by
  induction m with
  | nil => simp [consumeOne]
  | cons kv m ih =>
    simp only [consumeOne]
    by_cases h1 : kv.1 = k
    · rw [if_pos h1]
      by_cases hemp : kv.2.dropLast.isEmpty
      · rw [if_pos hemp]
        exact (List.sublist_cons_self _ _)
      · rw [if_neg hemp]
        simp
    · rw [if_neg h1]
      simp only [List.map_cons]
      exact ih.cons₂ _

theorem nodup_consumeOne {m : List (List Char × List Value)} (h : (m.map Prod.fst).Nodup)
    (k : List Char) : ((consumeOne m k).map Prod.fst).Nodup :=
  h.sublist (keys_consumeOne_sublist m k)

theorem interLoop_sublist : ∀ (ys : List Value) (m : List (List Char × List Value)),
    (interLoop m ys).Sublist ys := by
  intro ys
  induction ys with
  | nil => intro m; simp [interLoop]
  | cons item rest ih =>
    intro m
    simp only [interLoop]
    cases hb : bget m (fp item) with
    | none => exact (ih m).trans (List.sublist_cons_self _ _)
    | some l =>
      cases l with
      | nil => exact (ih m).trans (List.sublist_cons_self _ _)
      | cons h2 t2 => exact (ih _).cons₂ _

theorem countFp_interLoop : ∀ (ys : List Value) (m : List (List Char × List Value)),
    (m.map Prod.fst).Nodup → ∀ k,
    countFp k (interLoop m ys) = min (mlen m k) (countFp k ys) := by
  intro ys
  induction ys with
  | nil => intro m _ k; simp [interLoop, countFp]
  | cons item rest ih =>
    intro m hnd k
    simp only [interLoop]
    cases hb : bget m (fp item) with
    | none =>
      rw [ih m hnd k, countFp_cons]
      by_cases hk : fp item = k
      · subst hk
        have : mlen m (fp item) = 0 := by simp [mlen, hb]
        omega
      · simp [hk]
    | some l =>
      cases l with
      | nil =>
        rw [ih m hnd k, countFp_cons]
        by_cases hk : fp item = k
        · subst hk
          have : mlen m (fp item) = 0 := by simp [mlen, hb]
          omega
        · simp [hk]
      | cons h2 t2 =>
        rw [countFp_cons, ih (consumeOne m (fp item)) (nodup_consumeOne hnd _) k,
          mlen_consumeOne hnd, countFp_cons]
        by_cases hk : fp item = k
        · subst hk
          have hpos : 1 ≤ mlen m (fp item) := by simp [mlen, hb]
          simp only [eq_self_iff_true, if_true]
          omega
        · have : ¬(fp item = k) := hk
          simp only [if_neg this]
          omega

/-! ### Multiplicity maps used by the array diff -/

theorem bget_of_nodup {α : Type} {m : List (List Char × α)} {k : List Char} {c : α}
    (hnd : (m.map Prod.fst).Nodup) (h : (k, c) ∈ m) : bget m k = some c := by
  induction m with
  | nil => cases h
  | cons kv m ih =>
    simp only [List.map_cons, List.nodup_cons] at hnd
    rcases List.mem_cons.mp h with h1 | h1
    · simp [bget, ← h1]
    · have hk : kv.1 ≠ k := by
        intro he
        exact hnd.1 (he ▸ List.mem_map.mpr ⟨(k, c), h1, rfl⟩)
      simp only [bget, if_neg hk]
      exact ih hnd.2 h1

theorem countGet_bumpCount (m : List (List Char × Nat)) (k k2 : List Char) :
    countGet (bumpCount m k) k2 = countGet m k2 + (if k = k2 then 1 else 0) := by
  induction m with
  | nil => by_cases h : k = k2 <;> simp [bumpCount, countGet, bget, h]
  | cons kv m ih =>
    simp only [bumpCount]
    by_cases h1 : kv.1 = k
    · rw [if_pos h1]
      by_cases h2 : kv.1 = k2
      · have hk : k = k2 := h1 ▸ h2
        simp [countGet, bget, if_pos h2, hk]
      · have hk : ¬k = k2 := fun he => h2 (h1.trans he)
        simp [countGet, bget, if_neg h2, hk]
    · rw [if_neg h1]
      simp only [countGet, bget]
      by_cases h2 : kv.1 = k2
      · have hk : ¬k = k2 := fun he => h1 (he ▸ h2)
        simp [if_pos h2, hk]
      · simp only [if_neg h2]
        exact ih

theorem keys_bumpCount (m : List (List Char × Nat)) (k : List Char) :
    (bumpCount m k).map Prod.fst =
      if k ∈ m.map Prod.fst then m.map Prod.fst else m.map Prod.fst ++ [k] := by
  induction m with
  | nil => simp [bumpCount]
  | cons kv m ih =>
    simp only [bumpCount]
    by_cases h1 : kv.1 = k
    · have hmem : k ∈ (kv :: m).map Prod.fst := by simp [← h1]
      rw [if_pos h1, if_pos hmem]
      simp
    · rw [if_neg h1]
      simp only [List.map_cons, ih]
      by_cases h2 : k ∈ m.map Prod.fst
      · have hmem : k ∈ kv.1 :: m.map Prod.fst := by simp [h2]
        rw [if_pos h2, if_pos hmem]
      · have hmem : k ∉ kv.1 :: m.map Prod.fst := by
          simp only [List.mem_cons]
          push_neg
          exact ⟨fun he => h1 he.symm, h2⟩
        rw [if_neg h2, if_neg hmem]
        simp

theorem countGet_countsStep (lst : List Value) :
    ∀ (m : List (List Char × Nat)) (k : List Char),
    countGet (lst.foldl (fun counts item => bumpCount counts (fp item)) m) k =
      countGet m k + countFp k lst := by
  induction lst with
  | nil => intro m k; simp [countFp]
  | cons x t ih =>
    intro m k
    simp only [List.foldl_cons]
    rw [ih, countGet_bumpCount, countFp_cons]
    omega

theorem countGet_multiset_counts (lst : List Value) (k : List Char) :
    countGet (multiset_counts lst) k = countFp k lst := by
  simp only [multiset_counts]
  rw [countGet_countsStep]
  simp [countGet, bget]

theorem keys_countsStep_mem (lst : List Value) :
    ∀ (m : List (List Char × Nat)) (k : List Char),
    (k ∈ (lst.foldl (fun counts item => bumpCount counts (fp item)) m).map Prod.fst ↔
      k ∈ m.map Prod.fst ∨ k ∈ lst.map fp) := by
  induction lst with
  | nil => intro m k; simp
  | cons x t ih =>
    intro m k
    simp only [List.foldl_cons, List.map_cons, List.mem_cons]
    rw [ih, keys_bumpCount]
    by_cases h : fp x ∈ m.map Prod.fst
    · rw [if_pos h]
      constructor
      · rintro (h1 | h1)
        · exact Or.inl h1
        · exact Or.inr (Or.inr h1)
      · rintro (h1 | h1 | h1)
        · exact Or.inl h1
        · exact Or.inl (h1 ▸ h)
        · exact Or.inr h1
    · rw [if_neg h]
      simp only [List.mem_append, List.mem_singleton]
      constructor
      · rintro ((h1 | h1) | h1)
        · exact Or.inl h1
        · exact Or.inr (Or.inl h1)
        · exact Or.inr (Or.inr h1)
      · rintro (h1 | h1 | h1)
        · exact Or.inl (Or.inl h1)
        · exact Or.inl (Or.inr h1)
        · exact Or.inr h1

theorem keys_multiset_counts_mem (lst : List Value) (k : List Char) :
    k ∈ (multiset_counts lst).map Prod.fst ↔ k ∈ lst.map fp := by
  simp only [multiset_counts]
  rw [keys_countsStep_mem]
  simp

theorem nodup_countsStep (lst : List Value) :
    ∀ m : List (List Char × Nat), (m.map Prod.fst).Nodup →
    ((lst.foldl (fun counts item => bumpCount counts (fp item)) m).map Prod.fst).Nodup := by
  induction lst with
  | nil => intro m h; exact h
  | cons x t ih =>
    intro m h
    simp only [List.foldl_cons]
    apply ih
    rw [keys_bumpCount]
    by_cases h2 : fp x ∈ m.map Prod.fst
    · simpa [h2] using h
    · simp only [if_neg h2]
      simp [List.nodup_append, h, h2]

theorem nodup_multiset_counts (lst : List Value) :
    ((multiset_counts lst).map Prod.fst).Nodup :=
  nodup_countsStep lst [] (by simp)

theorem mem_multiset_counts_iff (lst : List Value) (k : List Char) (c : Nat) :
    (k, c) ∈ multiset_counts lst ↔ k ∈ lst.map fp ∧ c = countFp k lst := by
  constructor
  · intro h
    have hk : k ∈ (multiset_counts lst).map Prod.fst :=
      List.mem_map.mpr ⟨(k, c), h, rfl⟩
    have hb := bget_of_nodup (nodup_multiset_counts lst) h
    have hc := countGet_multiset_counts lst k
    rw [countGet, hb, Option.getD_some] at hc
    exact ⟨(keys_multiset_counts_mem lst k).mp hk, hc⟩
  · rintro ⟨hk, rfl⟩
    have hk2 : k ∈ (multiset_counts lst).map Prod.fst :=
      (keys_multiset_counts_mem lst k).mpr hk
    obtain ⟨kc, hkc, hfst⟩ := List.mem_map.mp hk2
    obtain ⟨k2, c2⟩ := kc
    subst hfst
    have hb := bget_of_nodup (nodup_multiset_counts lst) hkc
    have hc := countGet_multiset_counts lst k2
    rw [countGet, hb, Option.getD_some] at hc
    simpa [← hc] using hkc

/-! ### Characterization of the array branch of diff_json -/

theorem diffF_succ_arr (f : Nat) (xs ys : List Value) (p : String) :
    diffF (f + 1) (.arr xs) (.arr ys) p = DiffResult.mk
      ((multiset_counts xs).filterMap (fun kc =>
        if 0 < kc.2 - countGet (multiset_counts ys) kc.1 then
          some (OnlyEntry.mk (p ++ "[]") ((loads kc.1).getD .null)
            (some (kc.2 - countGet (multiset_counts ys) kc.1)))
        else none))
      ((multiset_counts ys).filterMap (fun kc =>
        if 0 < kc.2 - countGet (multiset_counts xs) kc.1 then
          some (OnlyEntry.mk (p ++ "[]") ((loads kc.1).getD .null)
            (some (kc.2 - countGet (multiset_counts xs) kc.1)))
        else none))
      [] := rfl

theorem countFp_fp_eq (x : Value) (l : List Value) :
    countFp (fp x) l = countNorm (normalize_json x) l :=
  countFp_eq_countNorm (normalize_json x) l

theorem arr_only_mem (xs ys : List Value) (p : String) (e : OnlyEntry) :
    (e ∈ (multiset_counts xs).filterMap (fun kc =>
        if 0 < kc.2 - countGet (multiset_counts ys) kc.1 then
          some (OnlyEntry.mk (p ++ "[]") ((loads kc.1).getD .null)
            (some (kc.2 - countGet (multiset_counts ys) kc.1)))
        else none)) ↔
      ∃ x ∈ xs, countNorm (normalize_json x) ys < countNorm (normalize_json x) xs ∧
        e = OnlyEntry.mk (p ++ "[]") (normalize_json x)
          (some (countNorm (normalize_json x) xs - countNorm (normalize_json x) ys)) := by
  rw [List.mem_filterMap]
  constructor
  · rintro ⟨kc, hkc, hf⟩
    obtain ⟨k, c⟩ := kc
    rw [mem_multiset_counts_iff] at hkc
    obtain ⟨hk, rfl⟩ := hkc
    obtain ⟨x, hx, rfl⟩ := List.mem_map.mp hk
    rw [countGet_multiset_counts] at hf
    by_cases hpos : 0 < countFp (fp x) xs - countFp (fp x) ys
    · rw [if_pos hpos] at hf
      injection hf with hf
      refine ⟨x, hx, ?_, ?_⟩
      · rw [← countFp_fp_eq, ← countFp_fp_eq]
        omega
      · rw [← hf, loads_fp, ← countFp_fp_eq, ← countFp_fp_eq]
        simp
    · rw [if_neg hpos] at hf
      cases hf
  · rintro ⟨x, hx, hlt, rfl⟩
    refine ⟨(fp x, countFp (fp x) xs), ?_, ?_⟩
    · rw [mem_multiset_counts_iff]
      exact ⟨List.mem_map.mpr ⟨x, hx, rfl⟩, rfl⟩
    · rw [countGet_multiset_counts]
      rw [if_pos (by rw [countFp_fp_eq, countFp_fp_eq]; omega)]
      rw [loads_fp, countFp_fp_eq, countFp_fp_eq]
      simp

theorem pairwise_filterMap_of {α β : Type} {R : α → α → Prop} {S : β → β → Prop}
    {f : α → Option β} : ∀ {l : List α}, l.Pairwise R →
    (∀ a ∈ l, ∀ b ∈ l, R a b → ∀ c d, f a = some c → f b = some d → S c d) →
    (l.filterMap f).Pairwise S := by
  intro l
  induction l with
  | nil => intro _ _; simp
  | cons a t ih =>
    intro h hf
    rw [List.pairwise_cons] at h
    rw [List.filterMap_cons]
    cases hfa : f a with
    | none =>
      exact ih h.2 (fun x hx y hy hr c d hc hd =>
        hf x (by simp [hx]) y (by simp [hy]) hr c d hc hd)
    | some c =>
      rw [List.pairwise_cons]
      constructor
      · intro d hd
        obtain ⟨b, hb, hfb⟩ := List.mem_filterMap.mp hd
        exact hf a (by simp) b (by simp [hb]) (h.1 b hb) c d hfa hfb
      · exact ih h.2 (fun x hx y hy hr c2 d hc hd =>
          hf x (by simp [hx]) y (by simp [hy]) hr c2 d hc hd)

theorem arr_only_pairwise (xs ys : List Value) (p : String) :
    ((multiset_counts xs).filterMap (fun kc =>
      if 0 < kc.2 - countGet (multiset_counts ys) kc.1 then
        some (OnlyEntry.mk (p ++ "[]") ((loads kc.1).getD .null)
          (some (kc.2 - countGet (multiset_counts ys) kc.1)))
      else none)).Pairwise (fun e1 e2 => e1.value ≠ e2.value) := by
  apply pairwise_filterMap_of (R := fun kc1 kc2 => kc1.1 ≠ kc2.1)
  · rw [← List.pairwise_map]
    exact nodup_multiset_counts xs
  · intro a ha b hb hr c d hc hd
    obtain ⟨ka, ca⟩ := a
    obtain ⟨kb, cb⟩ := b
    rw [mem_multiset_counts_iff] at ha hb
    obtain ⟨x1, hx1, rfl⟩ := List.mem_map.mp ha.1
    obtain ⟨x2, hx2, rfl⟩ := List.mem_map.mp hb.1
    have hcv : c.value = normalize_json x1 := by
      by_cases hp : 0 < ca - countGet (multiset_counts ys) (fp x1)
      · rw [if_pos hp] at hc
        injection hc with hc
        rw [← hc]
        simp [loads_fp]
      · rw [if_neg hp] at hc
        cases hc
    have hdv : d.value = normalize_json x2 := by
      by_cases hp : 0 < cb - countGet (multiset_counts ys) (fp x2)
      · rw [if_pos hp] at hd
        injection hd with hd
        rw [← hd]
        simp [loads_fp]
      · rw [if_neg hp] at hd
        cases hd
    rw [hcv, hdv]
    intro he
    exact hr (by show fp x1 = fp x2; unfold fp; rw [he])

/-! ### Characterization of the object branch of diff_json and intersect_json -/

def isObjB : Value → Bool
  | .obj _ => true
  | _ => false

def isArrB : Value → Bool
  | .arr _ => true
  | _ => false

/-- Sorted list of keys only in `ea` (`sorted(keys_a - keys_b)`). -/
def keysOnly (ea eb : List (String × Value)) : List String :=
  (((ea.map Prod.fst).dedup).filter
    (fun k => !(((eb.map Prod.fst).dedup).contains k))).mergeSort strLeB

/-- Sorted list of keys shared by `ea` and `eb` (`sorted(keys_a & keys_b)`). -/
def keysShared (ea eb : List (String × Value)) : List String :=
  (((ea.map Prod.fst).dedup).filter
    (fun k => ((eb.map Prod.fst).dedup).contains k)).mergeSort strLeB

/-- Per-shared-key contribution of the object branch of `diff_json`. -/
def diffContrib (ea eb : List (String × Value)) (p : String) (k : String) : DiffResult :=
  if isComposite (dictGet ea k) || isComposite (dictGet eb k) then
    diff_json (dictGet ea k) (dictGet eb k) (p ++ "." ++ k)
  else if !(deep_equal_ignore_order (dictGet ea k) (dictGet eb k)) then
    ⟨[], [], [ModEntry.mk (p ++ "." ++ k) (dictGet ea k) (dictGet eb k)]⟩
  else ⟨[], [], []⟩

def dmerge (x y : DiffResult) : DiffResult :=
  ⟨x.only_in_a ++ y.only_in_a, x.only_in_b ++ y.only_in_b, x.modified ++ y.modified⟩

theorem foldl_dmerge (g : String → DiffResult) : ∀ (ks : List String) (acc : DiffResult),
    ks.foldl (fun a k => dmerge a (g k)) acc =
      dmerge acc ⟨ks.flatMap (fun k => (g k).only_in_a), ks.flatMap (fun k => (g k).only_in_b),
        ks.flatMap (fun k => (g k).modified)⟩ := by
  intro ks
  induction ks with
  | nil =>
    intro acc
    obtain ⟨xa, xb, xm⟩ := acc
    simp [dmerge]
  | cons k t ih =>
    intro acc
    rw [List.foldl_cons, ih]
    obtain ⟨xa, xb, xm⟩ := acc
    simp [dmerge, List.append_assoc]

theorem diffF_succ_obj (f : Nat) (ea eb : List (String × Value)) (p : String) :
    diffF (f + 1) (.obj ea) (.obj eb) p =
      (keysShared ea eb).foldl (fun acc k =>
        if isComposite (dictGet ea k) || isComposite (dictGet eb k) then
          dmerge acc (diffF f (dictGet ea k) (dictGet eb k) (p ++ "." ++ k))
        else if !(deep_equal_ignore_order (dictGet ea k) (dictGet eb k)) then
          ⟨acc.only_in_a, acc.only_in_b,
            acc.modified ++ [ModEntry.mk (p ++ "." ++ k) (dictGet ea k) (dictGet eb k)]⟩
        else acc)
        (DiffResult.mk
          ((keysOnly ea eb).map (fun k => OnlyEntry.mk (p ++ "." ++ k) (dictGet ea k) none))
          ((keysOnly eb ea).map (fun k => OnlyEntry.mk (p ++ "." ++ k) (dictGet eb k) none))
          []) := rfl

theorem diff_json_obj_spec (ea eb : List (String × Value)) (p : String) :
    diff_json (.obj ea) (.obj eb) p = DiffResult.mk
      (((keysOnly ea eb).map (fun k => OnlyEntry.mk (p ++ "." ++ k) (dictGet ea k) none)) ++
        (keysShared ea eb).flatMap (fun k => (diffContrib ea eb p k).only_in_a))
      (((keysOnly eb ea).map (fun k => OnlyEntry.mk (p ++ "." ++ k) (dictGet eb k) none)) ++
        (keysShared ea eb).flatMap (fun k => (diffContrib ea eb p k).only_in_b))
      ((keysShared ea eb).flatMap (fun k => (diffContrib ea eb p k).modified)) := by
  have hv : vsize (Value.obj ea) = esize ea + 1 := by simp [vsize]; omega
  show diffF (vsize (Value.obj ea)) (.obj ea) (.obj eb) p = _
  rw [hv, diffF_succ_obj]
  have hstep : ∀ k ∈ keysShared ea eb, ∀ acc : DiffResult,
      (if isComposite (dictGet ea k) || isComposite (dictGet eb k) then
        dmerge acc (diffF (esize ea) (dictGet ea k) (dictGet eb k) (p ++ "." ++ k))
      else if !(deep_equal_ignore_order (dictGet ea k) (dictGet eb k)) then
        ⟨acc.only_in_a, acc.only_in_b,
          acc.modified ++ [ModEntry.mk (p ++ "." ++ k) (dictGet ea k) (dictGet eb k)]⟩
      else acc) = dmerge acc (diffContrib ea eb p k) := by
    intro k hk acc
    have hka : k ∈ ea.map Prod.fst := by
      have := List.mem_mergeSort.mp hk
      exact List.mem_dedup.mp (List.mem_filter.mp this).1
    have hszd : vsize (dictGet ea k) < vsize (Value.obj ea) := dictGet_vsize_lt hka
    have hfuel : diffF (esize ea) (dictGet ea k) (dictGet eb k) (p ++ "." ++ k) =
        diff_json (dictGet ea k) (dictGet eb k) (p ++ "." ++ k) := by
      apply diffF_fuel
      · simp only [vsize] at hszd
        omega
      · exact le_rfl
    rw [hfuel]
    simp only [diffContrib]
    split
    · rfl
    · split
      · obtain ⟨xa, xb, xm⟩ := acc
        simp [dmerge]
      · obtain ⟨xa, xb, xm⟩ := acc
        simp [dmerge]
  rw [foldl_congr_mem hstep, foldl_dmerge]
  simp [dmerge]

/-- Sorted common keys used by the object branch of `intersect_json`. -/
def keysCommon (ea eb : List (String × Value)) : List String :=
  ((ea.map Prod.fst).dedup.filter (fun k => (eb.map Prod.fst).contains k)).mergeSort strLeB

/-- Surviving entries of the object branch of `intersect_json`. -/
def interEntries (ea eb : List (String × Value)) : List (String × Value) :=
  (keysCommon ea eb).filterMap (fun k =>
    if intersect_json (dictGet ea k) (dictGet eb k) = .null then none
    else some (k, intersect_json (dictGet ea k) (dictGet eb k)))

theorem intersectF_succ_obj (f : Nat) (ea eb : List (String × Value)) :
    intersectF (f + 1) (.obj ea) (.obj eb) =
      (if ((keysCommon ea eb).filterMap (fun k =>
          if intersectF f (dictGet ea k) (dictGet eb k) = .null then none
          else some (k, intersectF f (dictGet ea k) (dictGet eb k)))).isEmpty then .null
       else .obj ((keysCommon ea eb).filterMap (fun k =>
          if intersectF f (dictGet ea k) (dictGet eb k) = .null then none
          else some (k, intersectF f (dictGet ea k) (dictGet eb k))))) := rfl

theorem intersect_json_obj_spec (ea eb : List (String × Value)) :
    intersect_json (.obj ea) (.obj eb) =
      if (interEntries ea eb).isEmpty then .null else .obj (interEntries ea eb) := by
  have hv : vsize (Value.obj ea) = esize ea + 1 := by simp [vsize]; omega
  show intersectF (vsize (Value.obj ea)) (.obj ea) (.obj eb) = _
  rw [hv, intersectF_succ_obj]
  have hfm : (keysCommon ea eb).filterMap (fun k =>
      if intersectF (esize ea) (dictGet ea k) (dictGet eb k) = .null then none
      else some (k, intersectF (esize ea) (dictGet ea k) (dictGet eb k))) =
      interEntries ea eb := by
    apply filterMap_congr_mem
    intro k hk
    have hka : k ∈ ea.map Prod.fst := by
      have := List.mem_mergeSort.mp hk
      exact List.mem_dedup.mp (List.mem_filter.mp this).1
    have hszd : vsize (dictGet ea k) < vsize (Value.obj ea) := dictGet_vsize_lt hka
    have hfuel : intersectF (esize ea) (dictGet ea k) (dictGet eb k) =
        intersect_json (dictGet ea k) (dictGet eb k) := by
      apply intersectF_fuel
      · simp only [vsize] at hszd
        omega
      · exact le_rfl
    rw [hfuel]
  rw [hfm]

theorem intersectF_succ_scalar (f : Nat) (a b : Value) (h1 : (isObjB a && isObjB b) = false)
    (h2 : (isArrB a && isArrB b) = false) :
    intersectF (f + 1) a b = if deep_equal_ignore_order a b then a else .null := by
  cases a <;> cases b <;> first | rfl | simp [isObjB, isArrB] at h1 h2

theorem intersect_json_scalar (a b : Value) (h1 : (isObjB a && isObjB b) = false)
    (h2 : (isArrB a && isArrB b) = false) :
    intersect_json a b = if deep_equal_ignore_order a b then a else .null := by
  show intersectF (vsize a) a b = _
  have hv : vsize a = (vsize a - 1) + 1 := by have := vsize_pos a; omega
  rw [hv, intersectF_succ_scalar _ a b h1 h2]

theorem diffF_succ_scalar (f : Nat) (a b : Value) (p : String)
    (h1 : (isObjB a && isObjB b) = false) (h2 : (isArrB a && isArrB b) = false) :
    diffF (f + 1) a b p =
      if !(deep_equal_ignore_order a b) then ⟨[], [], [ModEntry.mk p a b]⟩
      else ⟨[], [], []⟩ := by
  cases a <;> cases b <;> first | rfl | simp [isObjB, isArrB] at h1 h2

theorem diff_json_scalar (a b : Value) (p : String) (h1 : (isObjB a && isObjB b) = false)
    (h2 : (isArrB a && isArrB b) = false) :
    diff_json a b p =
      if !(deep_equal_ignore_order a b) then ⟨[], [], [ModEntry.mk p a b]⟩
      else ⟨[], [], []⟩ := by
  show diffF (vsize a) a b p = _
  have hv : vsize a = (vsize a - 1) + 1 := by have := vsize_pos a; omega
  rw [hv, diffF_succ_scalar _ a b p h1 h2]

theorem diff_json_arr_spec (xs ys : List Value) (p : String) :
    diff_json (.arr xs) (.arr ys) p = DiffResult.mk
      ((multiset_counts xs).filterMap (fun kc =>
        if 0 < kc.2 - countGet (multiset_counts ys) kc.1 then
          some (OnlyEntry.mk (p ++ "[]") ((loads kc.1).getD .null)
            (some (kc.2 - countGet (multiset_counts ys) kc.1)))
        else none))
      ((multiset_counts ys).filterMap (fun kc =>
        if 0 < kc.2 - countGet (multiset_counts xs) kc.1 then
          some (OnlyEntry.mk (p ++ "[]") ((loads kc.1).getD .null)
            (some (kc.2 - countGet (multiset_counts xs) kc.1)))
        else none))
      [] := by
  show diffF (vsize (Value.arr xs)) (.arr xs) (.arr ys) p = _
  have hv : vsize (Value.arr xs) = lsize xs + 1 := by simp [vsize]; omega
  rw [hv, diffF_succ_arr]

theorem intersect_json_arr_spec (xs ys : List Value) :
    intersect_json (.arr xs) (.arr ys) =
      if (interLoop (buildMapA xs) ys).isEmpty then .null
      else .arr (interLoop (buildMapA xs) ys) := by
  show intersectF (vsize (Value.arr xs)) (.arr xs) (.arr ys) = _
  have hv : vsize (Value.arr xs) = lsize xs + 1 := by simp [vsize]; omega
  rw [hv]
  rfl

/-! ### Strictly ascending sorted keys -/

theorem strLtB_of_le_ne {a b : String} (hle : strLeB a b = true) (hne : a ≠ b) :
    strLtB a b = true := by
  simp only [strLeB, lexLe, Bool.not_eq_true'] at hle
  simp only [strLtB]
  rcases Bool.eq_false_or_eq_true (lexLt a.data b.data) with h | h
  · exact h
  · exact absurd (String.ext (lexLt_eq_of_not _ _ h hle)) hne

theorem pairwise_lt_mergeSort {l : List String} (h : l.Nodup) :
    (l.mergeSort strLeB).Pairwise (fun a b => strLtB a b = true) := by
  have hs := mergeSort_sorted_key l
  have hn : (l.mergeSort strLeB).Nodup := ((l.mergeSort_perm strLeB).nodup_iff).mpr h
  have hp := List.Pairwise.and hs hn
  exact hp.imp (fun hab => strLtB_of_le_ne hab.1 hab.2)

theorem mem_keysOnly (ea eb : List (String × Value)) (k : String) :
    k ∈ keysOnly ea eb ↔ k ∈ ea.map Prod.fst ∧ k ∉ eb.map Prod.fst := by
  simp only [keysOnly, List.mem_mergeSort, List.mem_filter, List.mem_dedup,
    Bool.not_eq_true']
  constructor
  · rintro ⟨h1, h2⟩
    refine ⟨h1, fun hm => ?_⟩
    rw [Bool.eq_false_iff] at h2
    exact h2 (List.elem_iff.mpr (List.mem_dedup.mpr hm))
  · rintro ⟨h1, h2⟩
    refine ⟨h1, ?_⟩
    rw [Bool.eq_false_iff]
    intro hc
    exact h2 (List.mem_dedup.mp (List.elem_iff.mp hc))

theorem mem_keysShared (ea eb : List (String × Value)) (k : String) :
    k ∈ keysShared ea eb ↔ k ∈ ea.map Prod.fst ∧ k ∈ eb.map Prod.fst := by
  simp only [keysShared, List.mem_mergeSort, List.mem_filter, List.mem_dedup]
  constructor
  · rintro ⟨h1, h2⟩
    exact ⟨h1, List.mem_dedup.mp (List.elem_iff.mp h2)⟩
  · rintro ⟨h1, h2⟩
    exact ⟨h1, List.elem_iff.mpr (List.mem_dedup.mpr h2)⟩

theorem mem_keysCommon (ea eb : List (String × Value)) (k : String) :
    k ∈ keysCommon ea eb ↔ k ∈ ea.map Prod.fst ∧ k ∈ eb.map Prod.fst := by
  simp only [keysCommon, List.mem_mergeSort, List.mem_filter, List.mem_dedup]
  constructor
  · rintro ⟨h1, h2⟩
    exact ⟨h1, List.elem_iff.mp h2⟩
  · rintro ⟨h1, h2⟩
    exact ⟨h1, List.elem_iff.mpr h2⟩

theorem nodup_keysOnly (ea eb : List (String × Value)) : (keysOnly ea eb).Nodup :=
  ((List.mergeSort_perm _ strLeB).nodup_iff).mpr ((List.nodup_dedup _).filter _)

theorem nodup_keysShared (ea eb : List (String × Value)) : (keysShared ea eb).Nodup :=
  ((List.mergeSort_perm _ strLeB).nodup_iff).mpr ((List.nodup_dedup _).filter _)

theorem nodup_keysCommon (ea eb : List (String × Value)) : (keysCommon ea eb).Nodup :=
  ((List.mergeSort_perm _ strLeB).nodup_iff).mpr ((List.nodup_dedup _).filter _)

theorem keysShared_comm (ea eb : List (String × Value)) :
    keysShared ea eb = keysShared eb ea := by
  have hperm : (((ea.map Prod.fst).dedup).filter
      (fun k => ((eb.map Prod.fst).dedup).contains k)).Perm
      (((eb.map Prod.fst).dedup).filter
      (fun k => ((ea.map Prod.fst).dedup).contains k)) := by
    apply (List.perm_ext_iff_of_nodup ((List.nodup_dedup _).filter _)
      ((List.nodup_dedup _).filter _)).mpr
    intro k
    simp only [List.mem_filter, List.mem_dedup]
    constructor
    · rintro ⟨h1, h2⟩
      exact ⟨List.mem_dedup.mp (List.elem_iff.mp h2), List.elem_iff.mpr (List.mem_dedup.mpr h1)⟩
    · rintro ⟨h1, h2⟩
      exact ⟨List.mem_dedup.mp (List.elem_iff.mp h2), List.elem_iff.mpr (List.mem_dedup.mpr h1)⟩
  exact mergeSort_key_eq_of_perm hperm

/-- Python `==` after normalization is symmetric on well-formed values. -/
theorem deepEq_comm {x y : Value} (hvx : validV x = true) (hvy : validV y = true) :
    deep_equal_ignore_order x y = deep_equal_ignore_order y x := by
  have hnx : validV (normalize_json x) = true := validV_normalize (vsize x) x le_rfl hvx
  have hny : validV (normalize_json y) = true := validV_normalize (vsize y) y le_rfl hvy
  simp only [deep_equal_ignore_order, pyEq]
  cases hxy : pyEqF (vsize (normalize_json x)) (normalize_json x) (normalize_json y) with
  | true =>
    have hsym : pyEqF (vsize (normalize_json x)) (normalize_json y) (normalize_json x) = true :=
      pyEqF_symm_true _ _ _ hnx hny hxy
    have hconv : pyEqF (vsize (normalize_json x)) (normalize_json y) (normalize_json x) =
        pyEqF (vsize (normalize_json y)) (normalize_json y) (normalize_json x) :=
      pyEqF_fuelm (vsize (normalize_json x)) (vsize (normalize_json y))
        (normalize_json y) (normalize_json x) (min_le_right _ _) (min_le_left _ _)
    rw [← hconv]
    exact hsym.symm
  | false =>
    cases hyx : pyEqF (vsize (normalize_json y)) (normalize_json y) (normalize_json x) with
    | true =>
      have hsym : pyEqF (vsize (normalize_json y)) (normalize_json x) (normalize_json y) = true :=
        pyEqF_symm_true _ _ _ hny hnx hyx
      have hconv : pyEqF (vsize (normalize_json y)) (normalize_json x) (normalize_json y) =
          pyEqF (vsize (normalize_json x)) (normalize_json x) (normalize_json y) :=
        pyEqF_fuelm (vsize (normalize_json y)) (vsize (normalize_json x))
          (normalize_json x) (normalize_json y) (min_le_right _ _) (min_le_left _ _)
      rw [hconv] at hsym
      rw [hsym] at hxy
      cases hxy
    | false => rfl

theorem flatMap_congr_mem {α β : Type} {l : List α} {f g : α → List β}
    (h : ∀ x ∈ l, f x = g x) : l.flatMap f = l.flatMap g := by
  induction l with
  | nil => rfl
  | cons x xs ih =>
    simp only [List.flatMap_cons]
    rw [h x (by simp), ih (fun x hx => h x (by simp [hx]))]

theorem validV_dictGet {es : List (String × Value)} {k : String}
    (hv : validV (Value.obj es) = true) (hk : k ∈ es.map Prod.fst) :
    validV (dictGet es k) = true :=
  (validV_obj_iff.mp hv).2 _ (dictGet_mem hk)

theorem diff_scalar_antisym_parts {a b : Value} {p : String}
    (h1 : (isObjB a && isObjB b) = false) (h2 : (isArrB a && isArrB b) = false)
    (h1s : (isObjB b && isObjB a) = false) (h2s : (isArrB b && isArrB a) = false)
    (hcomm : deep_equal_ignore_order a b = deep_equal_ignore_order b a) :
    (diff_json a b p).only_in_a = (diff_json b a p).only_in_b ∧
    (diff_json a b p).only_in_b = (diff_json b a p).only_in_a ∧
    (diff_json b a p).modified = (diff_json a b p).modified.map
      (fun e => ModEntry.mk e.path e.b e.a) := by
  rw [diff_json_scalar a b p h1 h2, diff_json_scalar b a p h1s h2s, ← hcomm]
  cases hde : deep_equal_ignore_order a b <;> simp

theorem diff_antisym_aux : ∀ n (a b : Value) (p : String), vsize a + vsize b ≤ n →
    validV a = true → validV b = true →
    (diff_json a b p).only_in_a = (diff_json b a p).only_in_b ∧
    (diff_json a b p).only_in_b = (diff_json b a p).only_in_a ∧
    (diff_json b a p).modified = (diff_json a b p).modified.map
      (fun e => ModEntry.mk e.path e.b e.a) := by
  intro n
  induction n with
  | zero =>
    intro a b p hn _ _
    have := vsize_pos a
    have := vsize_pos b
    omega
  | succ m ih =>
    intro a b p hn hva hvb
    have harr : ∀ (xs ys : List Value),
        (diff_json (.arr xs) (.arr ys) p).only_in_a =
          (diff_json (.arr ys) (.arr xs) p).only_in_b ∧
        (diff_json (.arr xs) (.arr ys) p).only_in_b =
          (diff_json (.arr ys) (.arr xs) p).only_in_a ∧
        (diff_json (.arr ys) (.arr xs) p).modified =
          (diff_json (.arr xs) (.arr ys) p).modified.map
            (fun e => ModEntry.mk e.path e.b e.a) := by
      intro xs ys
      rw [diff_json_arr_spec xs ys p, diff_json_arr_spec ys xs p]
      exact ⟨rfl, rfl, by simp⟩
    cases a with
    | obj ea =>
      cases b with
      | obj eb =>
        have hcontrib : ∀ k ∈ keysShared ea eb,
            (diffContrib ea eb p k).only_in_a = (diffContrib eb ea p k).only_in_b ∧
            (diffContrib ea eb p k).only_in_b = (diffContrib eb ea p k).only_in_a ∧
            (diffContrib eb ea p k).modified = (diffContrib ea eb p k).modified.map
              (fun e => ModEntry.mk e.path e.b e.a) := by
          intro k hk
          obtain ⟨hka, hkb⟩ := (mem_keysShared ea eb k).mp hk
          have hvda : validV (dictGet ea k) = true := validV_dictGet hva hka
          have hvdb : validV (dictGet eb k) = true := validV_dictGet hvb hkb
          have hsa : vsize (dictGet ea k) < vsize (Value.obj ea) := dictGet_vsize_lt hka
          have hsb : vsize (dictGet eb k) < vsize (Value.obj eb) := dictGet_vsize_lt hkb
          simp only [diffContrib]
          have hoc : (isComposite (dictGet eb k) || isComposite (dictGet ea k)) =
              (isComposite (dictGet ea k) || isComposite (dictGet eb k)) :=
            Bool.or_comm _ _
          rw [hoc]
          by_cases hcomp : (isComposite (dictGet ea k) || isComposite (dictGet eb k)) = true
          · rw [if_pos hcomp, if_pos hcomp]
            exact ih (dictGet ea k) (dictGet eb k) (p ++ "." ++ k) (by omega) hvda hvdb
          · rw [if_neg hcomp, if_neg hcomp]
            rw [deepEq_comm hvdb hvda]
            cases hde : deep_equal_ignore_order (dictGet ea k) (dictGet eb k) <;> simp
        rw [diff_json_obj_spec ea eb p, diff_json_obj_spec eb ea p]
        refine ⟨?_, ?_, ?_⟩
        · show _ ++ _ = _ ++ _
          congr 1
          rw [keysShared_comm eb ea]
          apply flatMap_congr_mem
          intro k hk
          exact (hcontrib k hk).1
        · show _ ++ _ = _ ++ _
          congr 1
          rw [keysShared_comm eb ea]
          apply flatMap_congr_mem
          intro k hk
          exact (hcontrib k hk).2.1
        · show _ = _
          rw [keysShared_comm eb ea]
          rw [List.map_flatMap]
          apply flatMap_congr_mem
          intro k hk
          exact (hcontrib k hk).2.2
      | null => exact diff_scalar_antisym_parts rfl rfl rfl rfl (deepEq_comm hva hvb)
      | bool y => exact diff_scalar_antisym_parts rfl rfl rfl rfl (deepEq_comm hva hvb)
      | num y => exact diff_scalar_antisym_parts rfl rfl rfl rfl (deepEq_comm hva hvb)
      | str y => exact diff_scalar_antisym_parts rfl rfl rfl rfl (deepEq_comm hva hvb)
      | arr ys => exact diff_scalar_antisym_parts rfl rfl rfl rfl (deepEq_comm hva hvb)
    | arr xs =>
      cases b with
      | arr ys => exact harr xs ys
      | null => exact diff_scalar_antisym_parts rfl rfl rfl rfl (deepEq_comm hva hvb)
      | bool y => exact diff_scalar_antisym_parts rfl rfl rfl rfl (deepEq_comm hva hvb)
      | num y => exact diff_scalar_antisym_parts rfl rfl rfl rfl (deepEq_comm hva hvb)
      | str y => exact diff_scalar_antisym_parts rfl rfl rfl rfl (deepEq_comm hva hvb)
      | obj eb => exact diff_scalar_antisym_parts rfl rfl rfl rfl (deepEq_comm hva hvb)
    | null =>
      cases b <;> exact diff_scalar_antisym_parts rfl rfl rfl rfl (deepEq_comm hva hvb)
    | bool x =>
      cases b <;> exact diff_scalar_antisym_parts rfl rfl rfl rfl (deepEq_comm hva hvb)
    | num x =>
      cases b <;> exact diff_scalar_antisym_parts rfl rfl rfl rfl (deepEq_comm hva hvb)
    | str x =>
      cases b <;> exact diff_scalar_antisym_parts rfl rfl rfl rfl (deepEq_comm hva hvb)

/-! ## Ascending key enumeration: helper lemmas -/

theorem pairwise_keysOnly (ea eb : List (String × Value)) :
    (keysOnly ea eb).Pairwise (fun k1 k2 => strLtB k1 k2 = true) :=
  pairwise_lt_mergeSort ((List.nodup_dedup _).filter _)

theorem pairwise_keysShared (ea eb : List (String × Value)) :
    (keysShared ea eb).Pairwise (fun k1 k2 => strLtB k1 k2 = true) :=
  pairwise_lt_mergeSort ((List.nodup_dedup _).filter _)

theorem pairwise_keysCommon (ea eb : List (String × Value)) :
    (keysCommon ea eb).Pairwise (fun k1 k2 => strLtB k1 k2 = true) :=
  pairwise_lt_mergeSort ((List.nodup_dedup _).filter _)

theorem interEntries_keys_sublist (ea eb : List (String × Value)) :
    ((interEntries ea eb).map Prod.fst).Sublist (keysCommon ea eb) := by
  simp only [interEntries]
  generalize keysCommon ea eb = ks
  induction ks with
  | nil => simp
  | cons k ks ih =>
    by_cases h : intersect_json (dictGet ea k) (dictGet eb k) = Value.null
    · simp only [List.filterMap_cons, h, if_pos rfl]
      exact ih.trans (List.sublist_cons_self k ks)
    · simp only [List.filterMap_cons, if_neg h, List.map_cons]
      exact ih.cons₂ k

theorem pairwise_interEntries_keys (ea eb : List (String × Value)) :
    ((interEntries ea eb).map Prod.fst).Pairwise (fun k1 k2 => strLtB k1 k2 = true) :=
  (pairwise_keysCommon ea eb).sublist (interEntries_keys_sublist ea eb)

/-! ## The claims -/

/-- C1 (amended): for two values that are not both objects and not both arrays,
`intersect_json` returns `a` itself when `deep_equal_ignore_order a b` holds
(Python `==` on the canonical forms, which equates `True` with `1`) and otherwise
returns `Value.null`, the same value that encodes both JSON null and the absent
result.  Hence the result is present (non-null) iff the two are deep-equal and
`a` itself is not null; when additionally `order_equivalent a b` holds and `a`
is well-formed, the result equals `a`.  The original claim fails: `intersect`
of `Null` with `Null` yields the absence marker, and `intersect True 1` is
present although the two are not order-equivalent. -/
theorem C1_scalar_intersect (a b : Value) (h1 : (isObjB a && isObjB b) = false)
    (h2 : (isArrB a && isArrB b) = false) :
    intersect_json a b = (if deep_equal_ignore_order a b then a else Value.null) ∧
    (intersect_json a b ≠ Value.null ↔
      (deep_equal_ignore_order a b = true ∧ a ≠ Value.null)) ∧
    (order_equivalent a b → validV a = true → intersect_json a b = a) := by
  have hmain := intersect_json_scalar a b h1 h2
  refine ⟨hmain, ?_, ?_⟩
  · rw [hmain]
    cases hde : deep_equal_ignore_order a b
    · simp
    · simp
  · intro hoe hva
    have hoe2 : normalize_json a = normalize_json b := hoe
    have hde : deep_equal_ignore_order a b = true := by
      show pyEq (normalize_json a) (normalize_json b) = true
      rw [← hoe2]
      exact pyEq_refl (validV_normalize (vsize a) a le_rfl hva)
    rw [hmain, if_pos hde]

/-- Witness for C1 at `a = b = 3`: the hypotheses hold and the intersection is
present and equal to the value. -/
theorem C1_scalar_intersect_witness :
    intersect_json (Value.num 3) (Value.num 3) =
      (if deep_equal_ignore_order (Value.num 3) (Value.num 3) then Value.num 3
       else Value.null) ∧
    (intersect_json (Value.num 3) (Value.num 3) ≠ Value.null ↔
      (deep_equal_ignore_order (Value.num 3) (Value.num 3) = true ∧
        Value.num 3 ≠ Value.null)) ∧
    (order_equivalent (Value.num 3) (Value.num 3) → validV (Value.num 3) = true →
      intersect_json (Value.num 3) (Value.num 3) = Value.num 3) :=
  C1_scalar_intersect (Value.num 3) (Value.num 3) rfl rfl

/-- Counterexample to C1 as stated: `intersect_json null null` evaluates to
`Value.null`, the absence marker (Python `None`), although null is
order-equivalent to itself; and `intersect_json (bool true) (num 1)` is present
(equal to `bool true`) although `bool true` is not order-equivalent to
`num 1`. -/
theorem C1_counterexample :
    intersect_json Value.null Value.null = Value.null ∧
    order_equivalent Value.null Value.null ∧
    intersect_json (Value.bool true) (Value.num 1) = Value.bool true ∧
    ¬ order_equivalent (Value.bool true) (Value.num 1) := by
  refine ⟨rfl, rfl, rfl, fun h => ?_⟩
  have h2 : normalize_json (Value.bool true) = normalize_json (Value.num 1) := h
  exact absurd h2 (by decide)

/-- C2: on two arrays, `diff_json` emits no modified entries; it emits exactly
one `only_in_a` entry at `path ++ "[]"` per canonical form whose multiplicity
in `a` exceeds its multiplicity in `b`, carrying the canonical (decoded) value
and the excess count, and symmetrically for `only_in_b`.  Concretely,
`diff_json [1,1,2] [1,2,2] "$"` yields exactly one excess `1` on the a-side and
one excess `2` on the b-side. -/
theorem C2_array_diff :
    (∀ (as bs : List Value) (p : String),
      (diff_json (.arr as) (.arr bs) p).modified = [] ∧
      (∀ e : OnlyEntry, e ∈ (diff_json (.arr as) (.arr bs) p).only_in_a ↔
        ∃ x ∈ as, countNorm (normalize_json x) bs < countNorm (normalize_json x) as ∧
          e = OnlyEntry.mk (p ++ "[]") (normalize_json x)
            (some (countNorm (normalize_json x) as - countNorm (normalize_json x) bs))) ∧
      (∀ e : OnlyEntry, e ∈ (diff_json (.arr as) (.arr bs) p).only_in_b ↔
        ∃ x ∈ bs, countNorm (normalize_json x) as < countNorm (normalize_json x) bs ∧
          e = OnlyEntry.mk (p ++ "[]") (normalize_json x)
            (some (countNorm (normalize_json x) bs - countNorm (normalize_json x) as))) ∧
      (diff_json (.arr as) (.arr bs) p).only_in_a.Pairwise
        (fun e1 e2 => e1.value ≠ e2.value) ∧
      (diff_json (.arr as) (.arr bs) p).only_in_b.Pairwise
        (fun e1 e2 => e1.value ≠ e2.value)) ∧
    diff_json (.arr [Value.num 1, Value.num 1, Value.num 2])
        (.arr [Value.num 1, Value.num 2, Value.num 2]) "$" =
      DiffResult.mk [OnlyEntry.mk "$[]" (Value.num 1) (some 1)]
        [OnlyEntry.mk "$[]" (Value.num 2) (some 1)] [] := by
  constructor
  · intro as bs p
    rw [diff_json_arr_spec]
    exact ⟨rfl, fun e => arr_only_mem as bs p e, fun e => arr_only_mem bs as p e,
      arr_only_pairwise as bs p, arr_only_pairwise bs as p⟩
  · decide

/-- C3: on two arrays, `intersect_json` is the multiset intersection that
iterates `b`'s elements in order, consuming remaining occurrences per canonical
form from `a`'s multiplicity map: the emitted list is a sublist of `b` (original
elements of `b`, relative order preserved), every canonical form appears
`min (count in a) (count in b)` times, and the result is absent (`null`) exactly
when nothing is emitted. -/
theorem C3_array_intersect (as bs : List Value) :
    (interLoop (buildMapA as) bs).Sublist bs ∧
    (∀ c : Value, countNorm c (interLoop (buildMapA as) bs) =
      min (countNorm c as) (countNorm c bs)) ∧
    intersect_json (.arr as) (.arr bs) =
      (if interLoop (buildMapA as) bs = [] then Value.null
       else Value.arr (interLoop (buildMapA as) bs)) := by
  refine ⟨interLoop_sublist bs (buildMapA as), ?_, ?_⟩
  · intro c
    have h := countFp_interLoop bs (buildMapA as) (nodup_buildMapA as) (ser c)
    rw [mlen_buildMapA] at h
    simp only [countFp_eq_countNorm] at h
    exact h
  · rw [intersect_json_arr_spec]
    cases hi : interLoop (buildMapA as) bs
    · simp
    · simp

/-- C4: canonicalization is invariant under input ordering — permuting the
entries of any object or the elements of any array, recursively at any depth
(the relation `PermEquiv`), leaves the `normalize_json` output identical, for
any well-formed input (objects with unique keys, as Python dicts guarantee). -/
theorem C4_canonicalize_perm_invariant (a b : Value) (hva : validV a = true)
    (hab : PermEquiv a b) : normalize_json a = normalize_json b :=
  normalize_permEquiv hva hab

/-- Witness for C4: the object with keys `x, y` inserted in either order has
the same canonical form. -/
theorem C4_canonicalize_perm_invariant_witness :
    normalize_json (Value.obj [("x", Value.num 1), ("y", Value.num 2)]) =
      normalize_json (Value.obj [("y", Value.num 2), ("x", Value.num 1)]) :=
  C4_canonicalize_perm_invariant
    (Value.obj [("x", Value.num 1), ("y", Value.num 2)])
    (Value.obj [("y", Value.num 2), ("x", Value.num 1)])
    (by decide)
    (PermEquiv.obj (entriesEquiv_refl_of (fun kv _ => permEquiv_refl kv.2))
      (List.Perm.swap ("y", Value.num 2) ("x", Value.num 1) []))

/-- C5: canonicalization is idempotent — applying `normalize_json` to its own
output (as an ordinary value) returns that output unchanged, for every value. -/
theorem C5_canonicalize_idem (v : Value) :
    normalize_json (normalize_json v) = normalize_json v :=
  normalize_idem_aux (vsize v) v le_rfl

/-- C6: diff is antisymmetric under argument swap for well-formed values:
`only_in_a` of `diff a b` equals `only_in_b` of `diff b a` and vice versa (same
entries, same order), and the modified list of `diff b a` is that of `diff a b`
with the `a`/`b` fields swapped entrywise (so in particular the same path
sequence). -/
theorem C6_diff_antisym (a b : Value) (p : String) (hva : validV a = true)
    (hvb : validV b = true) :
    (diff_json a b p).only_in_a = (diff_json b a p).only_in_b ∧
    (diff_json a b p).only_in_b = (diff_json b a p).only_in_a ∧
    (diff_json b a p).modified = (diff_json a b p).modified.map
      (fun e => ModEntry.mk e.path e.b e.a) :=
  diff_antisym_aux (vsize a + vsize b) a b p le_rfl hva hvb

/-- Witness for C6 at the objects `{x: 1}` and `{x: 2}` under path `$`. -/
theorem C6_diff_antisym_witness :
    (diff_json (Value.obj [("x", Value.num 1)]) (Value.obj [("x", Value.num 2)])
        "$").only_in_a =
      (diff_json (Value.obj [("x", Value.num 2)]) (Value.obj [("x", Value.num 1)])
        "$").only_in_b ∧
    (diff_json (Value.obj [("x", Value.num 1)]) (Value.obj [("x", Value.num 2)])
        "$").only_in_b =
      (diff_json (Value.obj [("x", Value.num 2)]) (Value.obj [("x", Value.num 1)])
        "$").only_in_a ∧
    (diff_json (Value.obj [("x", Value.num 2)]) (Value.obj [("x", Value.num 1)])
        "$").modified =
      ((diff_json (Value.obj [("x", Value.num 1)]) (Value.obj [("x", Value.num 2)])
        "$").modified).map (fun e => ModEntry.mk e.path e.b e.a) :=
  C6_diff_antisym (Value.obj [("x", Value.num 1)]) (Value.obj [("x", Value.num 2)])
    "$" (by decide) (by decide)

/-- C7: the similarity score always lies in the closed interval `[0, 1]`, and
whenever the canonical forms of the two (well-formed) inputs are structurally
equal — in particular for a value compared with itself — the short-circuit
returns exactly `1`. -/
theorem C7_similarity_bounds (a b : Value) :
    0 ≤ similarity_score a b ∧ similarity_score a b ≤ 1 ∧
    (validV a = true → normalize_json a = normalize_json b →
      similarity_score a b = 1) :=
  ⟨similarity_nonneg a b, similarity_le_one a b,
    fun hva h => similarity_of_norm_eq hva h⟩

/-- C8: every array-level diff entry (at a path ending in `[]`) reports the
canonical form of the element — the value decoded from its serialized canonical
fingerprint — not the element as originally written.  Concretely, the object
element `{b: 1, a: 2}` of an array is reported with its keys in sorted order
`{a: 2, b: 1}`. -/
theorem C8_array_entry_values_canonical :
    (∀ (as bs : List Value) (p : String),
      (∀ e ∈ (diff_json (.arr as) (.arr bs) p).only_in_a,
        ∃ x ∈ as, e.value = normalize_json x ∧ e.path = p ++ "[]") ∧
      (∀ e ∈ (diff_json (.arr as) (.arr bs) p).only_in_b,
        ∃ x ∈ bs, e.value = normalize_json x ∧ e.path = p ++ "[]")) ∧
    diff_json (.arr [Value.obj [("b", Value.num 1), ("a", Value.num 2)]])
        (.arr []) "$" =
      DiffResult.mk
        [OnlyEntry.mk "$[]" (Value.obj [("a", Value.num 2), ("b", Value.num 1)])
          (some 1)] [] [] := by
  constructor
  · intro as bs p
    constructor
    · intro e he
      rw [diff_json_arr_spec] at he
      obtain ⟨x, hx, _, rfl⟩ := (arr_only_mem as bs p e).mp he
      exact ⟨x, hx, rfl, rfl⟩
    · intro e he
      rw [diff_json_arr_spec] at he
      obtain ⟨x, hx, _, rfl⟩ := (arr_only_mem bs as p e).mp he
      exact ⟨x, hx, rfl, rfl⟩
  · have hp : (([("b", Value.num 1), ("a", Value.num 2)]).map Prod.fst).Perm
        ["a", "b"] := List.Perm.swap "a" "b" []
    have hms : (([("b", Value.num 1), ("a", Value.num 2)]).map Prod.fst).mergeSort
        strLeB = ["a", "b"] := by
      rw [mergeSort_key_eq_of_perm hp]
      exact List.mergeSort_of_sorted (by decide)
    have hn : normalize_json (Value.obj [("b", Value.num 1), ("a", Value.num 2)]) =
        Value.obj [("a", Value.num 2), ("b", Value.num 1)] := by
      rw [normalize_obj_spec, hms]
      decide
    have hload : loads (fp (Value.obj [("b", Value.num 1), ("a", Value.num 2)])) =
        some (Value.obj [("a", Value.num 2), ("b", Value.num 1)]) := by
      rw [loads_fp, hn]
    rw [diff_json_arr_spec]
    simp [multiset_counts, bumpCount, countGet, bget, hload]

/-- C9: a similarity score of exactly `1` does not imply order-insensitive
equality: `[1,1]` and `[1,1,1]` have distinct canonical forms, yet their
canonical serializations `[1,1]` and `[1,1,1]` have identical byte-bigram
sets, so the score is `1`. -/
theorem C9_similarity_one_without_equivalence :
    similarity_score (Value.arr [Value.num 1, Value.num 1])
        (Value.arr [Value.num 1, Value.num 1, Value.num 1]) = 1 ∧
    ¬ order_equivalent (Value.arr [Value.num 1, Value.num 1])
        (Value.arr [Value.num 1, Value.num 1, Value.num 1]) := by
  have hsa : ([Value.num 1, Value.num 1] : List Value).Pairwise
      (fun x y => serLeB x y = true) := by decide
  have hsb : ([Value.num 1, Value.num 1, Value.num 1] : List Value).Pairwise
      (fun x y => serLeB x y = true) := by decide
  have ha : normalize_json (Value.arr [Value.num 1, Value.num 1]) =
      Value.arr [Value.num 1, Value.num 1] := by
    show Value.arr (([Value.num 1, Value.num 1] : List Value).mergeSort serLeB) = _
    rw [List.mergeSort_of_sorted hsa]
  have hb : normalize_json (Value.arr [Value.num 1, Value.num 1, Value.num 1]) =
      Value.arr [Value.num 1, Value.num 1, Value.num 1] := by
    show Value.arr
      (([Value.num 1, Value.num 1, Value.num 1] : List Value).mergeSort serLeB) = _
    rw [List.mergeSort_of_sorted hsb]
  have h1 : ¬(pyEq (Value.arr [Value.num 1, Value.num 1])
      (Value.arr [Value.num 1, Value.num 1, Value.num 1]) = true) := by decide
  have h2 : ¬(ngrams (ser (Value.arr [Value.num 1, Value.num 1])) = ∅ ∧
      ngrams (ser (Value.arr [Value.num 1, Value.num 1, Value.num 1])) = ∅) := by decide
  have h3 : ¬(ngrams (ser (Value.arr [Value.num 1, Value.num 1])) = ∅ ∨
      ngrams (ser (Value.arr [Value.num 1, Value.num 1, Value.num 1])) = ∅) := by decide
  have h4 : ¬((ngrams (ser (Value.arr [Value.num 1, Value.num 1])) ∪
      ngrams (ser (Value.arr [Value.num 1, Value.num 1, Value.num 1]))).card = 0) := by
    decide
  have hc1 : (ngrams (ser (Value.arr [Value.num 1, Value.num 1])) ∩
      ngrams (ser (Value.arr [Value.num 1, Value.num 1, Value.num 1]))).card = 4 := by
    decide
  have hc2 : (ngrams (ser (Value.arr [Value.num 1, Value.num 1])) ∪
      ngrams (ser (Value.arr [Value.num 1, Value.num 1, Value.num 1]))).card = 4 := by
    decide
  constructor
  · simp only [similarity_score, ha, hb]
    rw [if_neg h1, if_neg h2, if_neg h3, if_neg h4, hc1, hc2]
    norm_num
  · intro h
    have h2 : normalize_json (Value.arr [Value.num 1, Value.num 1]) =
        normalize_json (Value.arr [Value.num 1, Value.num 1, Value.num 1]) := h
    rw [ha, hb] at h2
    exact absurd h2 (by decide)

/-- C10: diff and intersect enumerate object keys in strictly ascending
lexicographic order: the key lists driving `only_in_a`, `only_in_b` and the
shared-key pass of `diff_json` are strictly ascending and characterize exactly
the key differences/intersection, `diff_json` on two objects is generated by
mapping over those sorted lists in order, the surviving keys of
`intersect_json`'s object result are strictly ascending, and `intersect_json`
is built from them in order. -/
theorem C10_object_key_order (ea eb : List (String × Value)) (p : String) :
    (keysOnly ea eb).Pairwise (fun k1 k2 => strLtB k1 k2 = true) ∧
    (keysShared ea eb).Pairwise (fun k1 k2 => strLtB k1 k2 = true) ∧
    ((interEntries ea eb).map Prod.fst).Pairwise (fun k1 k2 => strLtB k1 k2 = true) ∧
    (∀ k, k ∈ keysOnly ea eb ↔ k ∈ ea.map Prod.fst ∧ k ∉ eb.map Prod.fst) ∧
    (∀ k, k ∈ keysShared ea eb ↔ k ∈ ea.map Prod.fst ∧ k ∈ eb.map Prod.fst) ∧
    diff_json (.obj ea) (.obj eb) p = DiffResult.mk
      (((keysOnly ea eb).map
          (fun k => OnlyEntry.mk (p ++ "." ++ k) (dictGet ea k) none)) ++
        (keysShared ea eb).flatMap (fun k => (diffContrib ea eb p k).only_in_a))
      (((keysOnly eb ea).map
          (fun k => OnlyEntry.mk (p ++ "." ++ k) (dictGet eb k) none)) ++
        (keysShared ea eb).flatMap (fun k => (diffContrib ea eb p k).only_in_b))
      ((keysShared ea eb).flatMap (fun k => (diffContrib ea eb p k).modified)) ∧
    intersect_json (.obj ea) (.obj eb) =
      (if (interEntries ea eb).isEmpty then Value.null
       else Value.obj (interEntries ea eb)) :=
  ⟨pairwise_keysOnly ea eb, pairwise_keysShared ea eb,
    pairwise_interEntries_keys ea eb,
    fun k => mem_keysOnly ea eb k, fun k => mem_keysShared ea eb k,
    diff_json_obj_spec ea eb p, intersect_json_obj_spec ea eb⟩
